import Mathlib

/-!
Verification development for the `ttl-cache` package: an in-memory cache with
TTL expiry, LRU eviction (doubly linked list + map), stale-while-revalidate
(SWR), and deduplication of concurrent loader invocations.

The synchronous core (`TtlCache.set/get/peek/has/delete/clear/prune`,
`DoublyLinkedList`, `enforceMaxSize`, `removeEntry`, `sweep`, `setWithSwr`,
iteration) is embedded as pure functions over an explicit `CacheState`.
`Date.now()` becomes an explicit `now : Int` argument.  The mutable
`DoublyLinkedList` is embedded as the sequence of its nodes from head (MRU)
to tail (LRU); each pointer operation of the source is translated to its
effect on that sequence.  The JS `Map` is embedded as an insertion-ordered
association list (`set` replaces in place, new keys append, `delete` removes
the binding).  Since `map` and `list` share entry objects in the source, a
mutation of a shared entry is embedded as updating the entry in both views.

The asynchronous protocol (`getOrSet`, `executeLoader`, `refreshInBackground`,
`withAbort`, the `inflight` registry) is embedded as a small-step transition
system (`Sys`, `Label`, `step`): a JS async function runs atomically up to its
first `await`, so the synchronous prefix of a `getOrSet` call is one step
(`startCall`), the settlement of a loader promise together with the
`executeLoader` continuation is one step (`settleLoad`), the resumption of one
waiting caller is one step (`completeCall`), and the firing of a caller's
abort signal is one step (`abortCall`).  Schedulers choose arbitrary
interleavings of these labels.
-/

set_option linter.unusedVariables false
set_option linter.unnecessarySimpa false

namespace TtlCacheProof

/-- A cache entry: the source class `CacheEntry` holds `key`, `value`,
`expiresAt`, `staleUntil` (plus the `prev`/`next` linkage slots, which are
represented here by the entry's position in `CacheState.list`). -/
structure CacheEntry (K V : Type) where
  key : K
  value : V
  expiresAt : Int
  staleUntil : Int
  deriving Repr, DecidableEq

/-- Modelled from the spec: the file `cache-entry.ts` defining the
`CacheEntry` freshness predicates is not present under `src/`; the spec
defines freshness as a pure function of `(now, expiresAt, staleUntil)`,
with fresh iff `now < expiresAt`. -/
def CacheEntry.isFresh {K V : Type} (e : CacheEntry K V) (now : Int) : Bool :=
  decide (now < e.expiresAt)

/-- Modelled from the spec: stale iff `expiresAt ≤ now < staleUntil`. -/
def CacheEntry.isStale {K V : Type} (e : CacheEntry K V) (now : Int) : Bool :=
  decide (e.expiresAt ≤ now) && decide (now < e.staleUntil)

/-- Modelled from the spec: expired iff `now ≥ staleUntil`. -/
def CacheEntry.isExpired {K V : Type} (e : CacheEntry K V) (now : Int) : Bool :=
  decide (e.staleUntil ≤ now)

/-- Removal reasons (`types.ts`). -/
inductive EvictReason where
  | expired
  | evicted
  | manual
  | clear
  deriving Repr, DecidableEq

/-- Observable side effects: `onEvict` callback invocations (which carry the
removal reason) and `CacheEventEmitter.emit` calls (`events.ts`). -/
inductive Eff (K V : Type) where
  | onEvict (key : K) (value : V) (reason : EvictReason)
  | emitHit (key : K) (value : V)
  | emitMiss (key : K)
  | emitSet (key : K) (value : V)
  | emitEvict (key : K) (value : V)
  | emitLoad (key : K) (value : V)
  | emitStale (key : K) (value : V)
  deriving Repr, DecidableEq

/-- The `stats` record of `TtlCache` (`size` is derived from the map). -/
structure Stats where
  hits : Nat
  misses : Nat
  stale : Nat
  loads : Nat
  evictions : Nat
  deriving Repr, DecidableEq

def Stats.zero : Stats := ⟨0, 0, 0, 0, 0⟩

/-- Association-list embedding of a JS `Map`: `get`. -/
def alistLookup {K α : Type} [DecidableEq K] : List (K × α) → K → Option α
  | [], _ => none
  | (k1, a) :: rest, k => if k1 = k then some a else alistLookup rest k

/-- JS `Map.set`: replaces the value of an existing key in place, appends a
new key at the end (JS `Map` preserves insertion order). -/
def alistSet {K α : Type} [DecidableEq K] : List (K × α) → K → α → List (K × α)
  | [], k, a => [(k, a)]
  | (k1, a1) :: rest, k, a =>
      if k1 = k then (k, a) :: rest else (k1, a1) :: alistSet rest k a

/-- JS `Map.delete`: removes the binding of the key. -/
def alistDelete {K α : Type} [DecidableEq K] : List (K × α) → K → List (K × α)
  | [], _ => []
  | (k1, a1) :: rest, k =>
      if k1 = k then rest else (k1, a1) :: alistDelete rest k

def alistKeys {K α : Type} (m : List (K × α)) : List K := m.map Prod.fst

namespace DoublyLinkedList

variable {K V : Type} [DecidableEq K]

/-- `addToFront(entry)`: the new node becomes the head (MRU). -/
def addToFront (l : List (CacheEntry K V)) (e : CacheEntry K V) :
    List (CacheEntry K V) :=
  e :: l

/-- `remove(entry)`: unlinks the node from the list.  The source removes the
node object itself; here the node is identified by its key (the store keeps
at most one node per key). -/
def removeKey (l : List (CacheEntry K V)) (k : K) : List (CacheEntry K V) :=
  match l with
  | [] => []
  | e :: rest => if e.key = k then rest else e :: removeKey rest k

/-- `moveToFront(entry)`: no-op when the node is already the head, otherwise
`remove` followed by `addToFront`.  The identity test `entry === this.head`
is embedded as a key comparison: the store keeps at most one node per key,
so the head is the given node exactly when their keys agree. -/
def moveToFront (l : List (CacheEntry K V)) (e : CacheEntry K V) :
    List (CacheEntry K V) :=
  if l.head?.map CacheEntry.key = some e.key then l else e :: removeKey l e.key

/-- The source mutates a shared entry object (visible through both the map
and the list); this updates the list's view of the node with key `k`. -/
def updateEntry (l : List (CacheEntry K V)) (k : K) (e : CacheEntry K V) :
    List (CacheEntry K V) :=
  l.map fun e1 => if e1.key = k then e else e1

end DoublyLinkedList

open DoublyLinkedList

/-- The state of one `TtlCache` instance: primary map, eviction list (head =
MRU, tail = LRU), configuration and statistics. -/
structure CacheState (K V : Type) where
  map : List (K × CacheEntry K V)
  list : List (CacheEntry K V)
  defaultTtlMs : Int
  maxSize : Option Nat
  stats : Stats
  deriving Repr, DecidableEq

/-- `DEFAULT_TTL_MS` in `ttl-cache.ts`. -/
def DEFAULT_TTL_MS : Int := 30000

/-- The `TtlCache` constructor: `defaultTtlMs = options?.ttlMs ?? DEFAULT_TTL_MS`,
`maxSize = options?.maxSize`. -/
def mkCacheState {K V : Type} (ttlMs : Option Int) (maxSize : Option Nat) :
    CacheState K V :=
  { map := [], list := [], defaultTtlMs := ttlMs.getD DEFAULT_TTL_MS,
    maxSize := maxSize, stats := Stats.zero }

namespace TtlCache

variable {K V : Type} [DecidableEq K]

/-- `removeEntry(entry, reason)`: unlink from the list, delete from the map,
count evictions for reasons `expired`/`evicted`, invoke `onEvict` and emit
`evict`. -/
def removeEntry (s : CacheState K V) (e : CacheEntry K V) (reason : EvictReason) :
    CacheState K V × List (Eff K V) :=
  let stats1 :=
    if reason = EvictReason.expired ∨ reason = EvictReason.evicted then
      { s.stats with evictions := s.stats.evictions + 1 }
    else s.stats
  ({ s with list := removeKey s.list e.key,
            map := alistDelete s.map e.key,
            stats := stats1 },
   [Eff.onEvict e.key e.value reason, Eff.emitEvict e.key e.value])

/-- The loop body of `enforceMaxSize`: while `map.size > maxSize`, pop the
tail of the list (LRU), delete it from the map, count the eviction, invoke
`onEvict` with reason `evicted` and emit `evict`; stop if the list is empty. -/
def enforceMaxSizeGo (bound : Nat) (s : CacheState K V) (effs : List (Eff K V)) :
    CacheState K V × List (Eff K V) :=
  if s.map.length > bound then
    match h : s.list.getLast? with
    | none => (s, effs)
    | some evicted =>
        enforceMaxSizeGo bound
          { s with list := s.list.dropLast,
                   map := alistDelete s.map evicted.key,
                   stats := { s.stats with evictions := s.stats.evictions + 1 } }
          (effs ++ [Eff.onEvict evicted.key evicted.value EvictReason.evicted,
                    Eff.emitEvict evicted.key evicted.value])
  else (s, effs)
termination_by s.list.length
decreasing_by
  simp only [List.length_dropLast]
  have hne : s.list ≠ [] := by
    intro hnil
    rw [hnil] at h
    simp [List.getLast?] at h
  have : 0 < s.list.length := List.length_pos.mpr hne
  omega

/-- `enforceMaxSize()`: no-op when no bound is configured. -/
def enforceMaxSize (s : CacheState K V) : CacheState K V × List (Eff K V) :=
  match s.maxSize with
  | none => (s, [])
  | some bound => enforceMaxSizeGo bound s []

/-- `set(key, value, options?)`: `expiresAt = now + ttl`, `staleUntil =
expiresAt` (no SWR on plain set); update-and-promote an existing entry, or
create, add to front and enforce the capacity bound; emit `set`. -/
def set (s : CacheState K V) (now : Int) (key : K) (value : V)
    (ttlMs : Option Int) : CacheState K V × List (Eff K V) :=
  let ttl := ttlMs.getD s.defaultTtlMs
  let expiresAt := now + ttl
  let staleUntil := expiresAt
  match alistLookup s.map key with
  | some existing =>
      let e := { existing with
        value := value
        expiresAt := expiresAt
        staleUntil := staleUntil }
      ({ s with map := alistSet s.map key e,
                list := moveToFront (updateEntry s.list key e) e },
       [Eff.emitSet key value])
  | none =>
      let e : CacheEntry K V := ⟨key, value, expiresAt, staleUntil⟩
      let s1 := { s with map := alistSet s.map key e,
                         list := addToFront s.list e }
      let p := enforceMaxSize s1
      (p.1, p.2 ++ [Eff.emitSet key value])

/-- `get(key)`: serves only fresh entries; a stale entry is a miss; a fully
expired entry is removed (reason `expired`) as a side effect; a fresh hit
promotes the entry and records a hit. -/
def get (s : CacheState K V) (now : Int) (key : K) :
    Option V × CacheState K V × List (Eff K V) :=
  match alistLookup s.map key with
  | none =>
      (none, { s with stats := { s.stats with misses := s.stats.misses + 1 } },
       [Eff.emitMiss key])
  | some entry =>
      if entry.isFresh now then
        (some entry.value,
         { s with list := moveToFront s.list entry,
                  stats := { s.stats with hits := s.stats.hits + 1 } },
         [Eff.emitHit key entry.value])
      else
        let p := if entry.isExpired now then removeEntry s entry EvictReason.expired
                 else (s, [])
        (none,
         { p.1 with stats := { p.1.stats with misses := p.1.stats.misses + 1 } },
         p.2 ++ [Eff.emitMiss key])

/-- `peek(key)`: returns the value without updating the LRU order; removes
the entry only when it is fully expired. -/
def peek (s : CacheState K V) (now : Int) (key : K) :
    Option V × CacheState K V × List (Eff K V) :=
  match alistLookup s.map key with
  | none => (none, s, [])
  | some entry =>
      if entry.isExpired now then
        let p := removeEntry s entry EvictReason.expired
        (none, p.1, p.2)
      else (some entry.value, s, [])

/-- `has(key)`: existence check with the same lazy expiry removal as `peek`. -/
def hasKey (s : CacheState K V) (now : Int) (key : K) :
    Bool × CacheState K V × List (Eff K V) :=
  match alistLookup s.map key with
  | none => (false, s, [])
  | some entry =>
      if entry.isExpired now then
        let p := removeEntry s entry EvictReason.expired
        (false, p.1, p.2)
      else (true, s, [])

/-- `delete(key)`: unconditional removal with reason `manual`. -/
def deleteKey (s : CacheState K V) (key : K) :
    Bool × CacheState K V × List (Eff K V) :=
  match alistLookup s.map key with
  | none => (false, s, [])
  | some entry =>
      let p := removeEntry s entry EvictReason.manual
      (true, p.1, p.2)

/-- `clear()`: `onEvict(…, 'clear')` and an `evict` event for every entry,
then both structures are emptied (statistics are not touched). -/
def clear (s : CacheState K V) : CacheState K V × List (Eff K V) :=
  ({ s with map := [], list := [] },
   s.map.flatMap fun p =>
     [Eff.onEvict p.2.key p.2.value EvictReason.clear,
      Eff.emitEvict p.2.key p.2.value])

/-- The loop of `sweep()`: walk the map entries, removing each fully expired
one with reason `expired`. -/
def sweepGo (now : Int) : List (K × CacheEntry K V) → CacheState K V →
    List (Eff K V) → CacheState K V × List (Eff K V)
  | [], s, effs => (s, effs)
  | (_, e) :: rest, s, effs =>
      if e.isExpired now then
        let p := removeEntry s e EvictReason.expired
        sweepGo now rest p.1 (effs ++ p.2)
      else sweepGo now rest s effs

/-- `sweep()` / `prune()`: eager removal of every fully expired entry. -/
def sweep (s : CacheState K V) (now : Int) : CacheState K V × List (Eff K V) :=
  sweepGo now s.map s []

/-- `setWithSwr(key, value, options?)`: like `set`, but `staleUntil =
expiresAt + swr` with `swr = options?.swrMs ?? 0`. -/
def setWithSwr (s : CacheState K V) (now : Int) (key : K) (value : V)
    (ttlMs : Option Int) (swrMs : Option Int) :
    CacheState K V × List (Eff K V) :=
  let ttl := ttlMs.getD s.defaultTtlMs
  let swr := swrMs.getD 0
  let expiresAt := now + ttl
  let staleUntil := expiresAt + swr
  match alistLookup s.map key with
  | some existing =>
      let e := { existing with
        value := value
        expiresAt := expiresAt
        staleUntil := staleUntil }
      ({ s with map := alistSet s.map key e,
                list := moveToFront (updateEntry s.list key e) e },
       [Eff.emitSet key value])
  | none =>
      let e : CacheEntry K V := ⟨key, value, expiresAt, staleUntil⟩
      let s1 := { s with map := alistSet s.map key e,
                         list := addToFront s.list e }
      let p := enforceMaxSize s1
      (p.1, p.2 ++ [Eff.emitSet key value])

/-- The `Symbol.iterator` generator: yields `(key, value)` of the fresh
entries in map order, then lazily removes the expired entries it saw (stale
entries are neither yielded nor removed). -/
def iterate (s : CacheState K V) (now : Int) :
    List (K × V) × CacheState K V × List (Eff K V) :=
  let yielded := (s.map.filter fun p => p.2.isFresh now).map
    fun p => (p.2.key, p.2.value)
  let expired := s.map.filter fun p => p.2.isExpired now
  let final := expired.foldl
    (fun (acc : CacheState K V × List (Eff K V)) p =>
      let q := removeEntry acc.1 p.2 EvictReason.expired
      (q.1, acc.2 ++ q.2))
    (s, [])
  (yielded, final.1, final.2)

end TtlCache

/-- Store well-formedness (the invariant of claim C8): the primary map has
no duplicate keys, the eviction list has no two nodes with the same key,
every map binding is keyed consistently and its entry is a node of the list,
and every node of the list is found in the map under its own key. -/
def WF {K V : Type} [DecidableEq K] (s : CacheState K V) : Prop :=
  (alistKeys s.map).Nodup ∧
  (s.list.map CacheEntry.key).Nodup ∧
  (∀ p ∈ s.map, p.2.key = p.1 ∧ p.2 ∈ s.list) ∧
  (∀ e ∈ s.list, alistLookup s.map e.key = some e)

instance {K V : Type} [DecidableEq K] [DecidableEq V] (s : CacheState K V) :
    Decidable (WF s) := by
  unfold WF
  infer_instance

/-! ## The asynchronous `getOrSet` protocol as a labelled transition system -/

/-- Per-call options of `getOrSet` (`GetOrSetOptions` in `types.ts`).
`dedupe` is the resolved boolean `options?.dedupe !== false`; `hasSignal`
records whether an `AbortSignal` was supplied and `preAborted` whether that
signal was already aborted when the call was made. -/
structure GetOrSetOpts where
  ttlMs : Option Int
  swrMs : Option Int
  dedupe : Bool
  hasSignal : Bool
  preAborted : Bool
  deriving Repr, DecidableEq

/-- How a loader promise settles (errors abstracted as numeric codes). -/
inductive LoadOutcome (V : Type) where
  | ok (v : V)
  | err (e : Nat)
  deriving Repr, DecidableEq

/-- How one `getOrSet` call settles for its caller. -/
inductive CallResult (V : Type) where
  | ok (v : V)
  | err (e : Nat)
  | aborted
  deriving Repr, DecidableEq

def LoadOutcome.toResult {V : Type} : LoadOutcome V → CallResult V
  | LoadOutcome.ok v => CallResult.ok v
  | LoadOutcome.err e => CallResult.err e

/-- The control state of one `getOrSet` caller: not yet run, suspended on
`await this.withAbort(promise, signal)` (with `creator = true` when this
caller executed the `try/finally` that deletes the inflight registration),
or settled. -/
inductive ProcState (V : Type) where
  | ready
  | waiting (pid : Nat) (creator : Bool)
  | done (r : CallResult V)
  deriving Repr, DecidableEq

/-- One `getOrSet` caller. -/
structure Proc (K V : Type) where
  key : K
  opts : GetOrSetOpts
  state : ProcState V
  deriving Repr, DecidableEq

/-- One loader invocation whose promise has not yet settled, with the
options `executeLoader` will use and whether it was started by
`refreshInBackground` (whose `finally` clears the inflight registration). -/
structure LoadOp (K : Type) where
  pid : Nat
  key : K
  ttlMs : Option Int
  swrMs : Option Int
  background : Bool
  deriving Repr, DecidableEq

/-- The whole system: the cache, the `inflight` registry (key to promise),
the pending and settled loader promises, the callers, the number of loader
invocations so far, a fresh-promise counter, the (constant) current time and
the accumulated effect log. -/
structure Sys (K V : Type) where
  cache : CacheState K V
  inflight : List (K × Nat)
  ops : List (LoadOp K)
  settled : List (Nat × LoadOutcome V)
  procs : List (Proc K V)
  loaderCalls : Nat
  nextPid : Nat
  now : Int
  log : List (Eff K V)
  deriving Repr, DecidableEq

def listModify {α : Type} (l : List α) (i : Nat) (f : α → α) : List α :=
  match l, i with
  | [], _ => []
  | a :: rest, 0 => f a :: rest
  | a :: rest, n+1 => a :: listModify rest n f

def procSet {K V : Type} (sys : Sys K V) (i : Nat) (st : ProcState V) : Sys K V :=
  { sys with procs := listModify sys.procs i fun p => { p with state := st } }

section Steps

variable {K V : Type} [DecidableEq K]

/-- Start a fresh loader invocation (branch 3 of `getOrSet` when no inflight
promise is reused): `executeLoader` invokes the loader, the promise is
registered in `inflight` when dedupe is on, and the caller suspends on
`await this.withAbort(promise, signal)`; the caller runs the `try/finally`
that deletes the registration (`creator`) exactly when dedupe is on. -/
def startNewLoad (sys : Sys K V) (i : Nat) (p : Proc K V) : Sys K V :=
  let pid := sys.nextPid
  let sys1 := { sys with
    ops := sys.ops ++ [⟨pid, p.key, p.opts.ttlMs, p.opts.swrMs, false⟩]
    loaderCalls := sys.loaderCalls + 1
    nextPid := pid + 1
    inflight := if p.opts.dedupe then alistSet sys.inflight p.key pid
                else sys.inflight }
  procSet sys1 i (ProcState.waiting pid p.opts.dedupe)

/-- Branch 3 of `getOrSet` (miss / fully expired): remove the expired entry
if present, record the miss, then either attach to an existing inflight
promise (dedupe) or start and register a new loader invocation. -/
def startMiss (sys : Sys K V) (i : Nat) (p : Proc K V)
    (entry? : Option (CacheEntry K V)) : Option (Sys K V) :=
  let sys1 := match entry? with
    | some entry =>
        let q := TtlCache.removeEntry sys.cache entry EvictReason.expired
        { sys with cache := q.1, log := sys.log ++ q.2 }
    | none => sys
  let sys2 := { sys1 with
    cache := { sys1.cache with
      stats := { sys1.cache.stats with misses := sys1.cache.stats.misses + 1 } }
    log := sys1.log ++ [Eff.emitMiss p.key] }
  if p.opts.dedupe then
    match alistLookup sys2.inflight p.key with
    | some pid => some (procSet sys2 i (ProcState.waiting pid false))
    | none => some (startNewLoad sys2 i p)
  else some (startNewLoad sys2 i p)

/-- The synchronous prefix of a `getOrSet` call, which runs atomically (a JS
async function cannot be preempted before its first `await`):
`signal?.throwIfAborted()`, then the three-branch freshness dispatch.  A
fresh hit and a stale hit return without ever suspending; the stale hit also
runs `refreshInBackground` (no-op when an inflight promise exists for the
key, otherwise it invokes the loader and registers the promise). -/
def startCall (sys : Sys K V) (i : Nat) : Option (Sys K V) :=
  match sys.procs.get? i with
  | none => none
  | some p =>
  match p.state with
  | ProcState.ready =>
    if p.opts.hasSignal && p.opts.preAborted then
      some (procSet sys i (ProcState.done CallResult.aborted))
    else
      match alistLookup sys.cache.map p.key with
      | some entry =>
        if entry.isFresh sys.now then
          some { procSet sys i (ProcState.done (CallResult.ok entry.value)) with
            cache := { sys.cache with
              list := moveToFront sys.cache.list entry
              stats := { sys.cache.stats with hits := sys.cache.stats.hits + 1 } }
            log := sys.log ++ [Eff.emitHit p.key entry.value] }
        else if entry.isStale sys.now then
          let sys1 := { procSet sys i (ProcState.done (CallResult.ok entry.value)) with
            cache := { sys.cache with
              list := moveToFront sys.cache.list entry
              stats := { sys.cache.stats with stale := sys.cache.stats.stale + 1 } }
            log := sys.log ++ [Eff.emitStale p.key entry.value] }
          if (alistLookup sys1.inflight p.key).isSome then some sys1
          else some { sys1 with
            ops := sys1.ops ++ [⟨sys1.nextPid, p.key, p.opts.ttlMs, p.opts.swrMs, true⟩]
            loaderCalls := sys1.loaderCalls + 1
            inflight := alistSet sys1.inflight p.key sys1.nextPid
            nextPid := sys1.nextPid + 1 }
        else
          startMiss sys i p (some entry)
      | none => startMiss sys i p none
  | _ => none

/-- Settlement of a loader promise, together with the `executeLoader`
continuation that runs before any waiter resumes: on success the value is
written through `setWithSwr`, `stats.loads` is incremented and `load` is
emitted; on failure nothing is written.  For a promise started by
`refreshInBackground`, its `catch/finally` chain swallows the error and
deletes the inflight registration. -/
def settleLoad (sys : Sys K V) (pid : Nat) (outcome : LoadOutcome V) :
    Option (Sys K V) :=
  match sys.ops.find? (fun op => op.pid == pid) with
  | none => none
  | some op =>
    let sys1 := { sys with
      ops := sys.ops.filter (fun op1 => op1.pid != pid)
      settled := sys.settled ++ [(pid, outcome)] }
    let sys2 := match outcome with
      | LoadOutcome.ok v =>
        let q := TtlCache.setWithSwr sys1.cache sys1.now op.key v op.ttlMs op.swrMs
        { sys1 with
          cache := { q.1 with
            stats := { q.1.stats with loads := q.1.stats.loads + 1 } }
          log := sys1.log ++ q.2 ++ [Eff.emitLoad op.key v] }
      | LoadOutcome.err _ => sys1
    if op.background then
      some { sys2 with inflight := alistDelete sys2.inflight op.key }
    else some sys2

/-- A waiting caller resumes after its promise settled: it observes the
outcome, and — when it is the caller that registered the promise — its
`finally` deletes the key from `inflight`. -/
def completeCall (sys : Sys K V) (i : Nat) : Option (Sys K V) :=
  match sys.procs.get? i with
  | none => none
  | some p =>
  match p.state with
  | ProcState.waiting pid creator =>
    match alistLookup sys.settled pid with
    | none => none
    | some outcome =>
      let sys1 := procSet sys i (ProcState.done outcome.toResult)
      if creator then
        some { sys1 with inflight := alistDelete sys1.inflight p.key }
      else some sys1
  | _ => none

/-- A waiting caller's abort signal fires: `withAbort` rejects that caller's
wait with the abort reason.  The loader promise itself is untouched, but when
the aborted caller is the one that registered it, the rejection runs that
caller's `finally`, which deletes the key from `inflight`. -/
def abortCall (sys : Sys K V) (i : Nat) : Option (Sys K V) :=
  match sys.procs.get? i with
  | none => none
  | some p =>
  match p.state with
  | ProcState.waiting pid creator =>
    if p.opts.hasSignal then
      let sys1 := procSet sys i (ProcState.done CallResult.aborted)
      if creator then
        some { sys1 with inflight := alistDelete sys1.inflight p.key }
      else some sys1
    else none
  | _ => none

end Steps

/-- Scheduler labels: the synchronous prefix of caller `i`, settlement of a
loader promise, resumption of a waiting caller, the firing of a caller's
abort signal, and the synchronous cache operations (which run to completion
in one step). -/
inductive Label (K V : Type) where
  | start (i : Nat)
  | settle (pid : Nat) (outcome : LoadOutcome V)
  | complete (i : Nat)
  | abortSig (i : Nat)
  | setOp (key : K) (value : V) (ttlMs : Option Int)
  | getOp (key : K)
  | peekOp (key : K)
  | deleteOp (key : K)
  | clearOp
  | pruneOp
  deriving Repr, DecidableEq

section StepRun

variable {K V : Type} [DecidableEq K]

def step (sys : Sys K V) : Label K V → Option (Sys K V)
  | Label.start i => startCall sys i
  | Label.settle pid outcome => settleLoad sys pid outcome
  | Label.complete i => completeCall sys i
  | Label.abortSig i => abortCall sys i
  | Label.setOp k v t =>
      let q := TtlCache.set sys.cache sys.now k v t
      some { sys with cache := q.1, log := sys.log ++ q.2 }
  | Label.getOp k =>
      let q := TtlCache.get sys.cache sys.now k
      some { sys with cache := q.2.1, log := sys.log ++ q.2.2 }
  | Label.peekOp k =>
      let q := TtlCache.peek sys.cache sys.now k
      some { sys with cache := q.2.1, log := sys.log ++ q.2.2 }
  | Label.deleteOp k =>
      let q := TtlCache.deleteKey sys.cache k
      some { sys with cache := q.2.1, log := sys.log ++ q.2.2 }
  | Label.clearOp =>
      let q := TtlCache.clear sys.cache
      some { sys with cache := q.1, log := sys.log ++ q.2 }
  | Label.pruneOp =>
      let q := TtlCache.sweep sys.cache sys.now
      some { sys with cache := q.1, log := sys.log ++ q.2 }

/-- Run a schedule. -/
def run (sys : Sys K V) : List (Label K V) → Option (Sys K V)
  | [] => some sys
  | l :: ls =>
    match step sys l with
    | none => none
    | some sys1 => run sys1 ls

end StepRun

/-! ## The action trace of the synchronous prefix of `getOrSet` -/

/-- The primitive actions of the synchronous prefix of a `getOrSet` call, in
source order; `awaitPoint` marks the only statement at which the call can
suspend (`await this.withAbort(...)`). -/
inductive SyncAction where
  | throwIfAborted
  | freshHitReturn
  | staleHitReturn
  | missDetermined
  | removedExpired
  | recordMiss
  | attachedExisting
  | loaderInvoked
  | inflightRegistered
  | awaitPoint
  deriving Repr, DecidableEq

/-- The ordered action list of the synchronous prefix of `getOrSet`, with the
branch conditions (`signal already aborted`, `entry present`, `entry fresh`,
`entry stale`, `dedupe`, `inflight has key`) abstracted as booleans; every
line of the source between branch 3 being chosen and the caller's suspension
appears here in source order. -/
def getOrSetSyncActions (preAborted entryPresent fresh stale dedupe inflightHas :
    Bool) : List SyncAction :=
  if preAborted then [SyncAction.throwIfAborted]
  else if entryPresent && fresh then [SyncAction.freshHitReturn]
  else if entryPresent && stale then [SyncAction.staleHitReturn]
  else
    [SyncAction.missDetermined] ++
    (if entryPresent then [SyncAction.removedExpired] else []) ++
    [SyncAction.recordMiss] ++
    (if dedupe && inflightHas then
      [SyncAction.attachedExisting, SyncAction.awaitPoint]
     else
      [SyncAction.loaderInvoked] ++
      (if dedupe then [SyncAction.inflightRegistered] else []) ++
      [SyncAction.awaitPoint])

/-! ## Concrete instances used by witnesses and counterexamples -/

/-- Default `getOrSet` options: no overrides, dedupe on, no signal. -/
def optsPlain : GetOrSetOpts := ⟨none, none, true, false, false⟩

/-- Options with a (not yet aborted) abort signal. -/
def optsSignal : GetOrSetOpts := ⟨none, none, true, true, false⟩

/-- A concrete entry that is stale at time 100 (fresh until 50, servable
until 200). -/
def staleEntryC : CacheEntry Nat Nat := ⟨1, 5, 50, 200⟩

/-- A concrete store holding only `staleEntryC`. -/
def staleStateC : CacheState Nat Nat :=
  { map := [(1, staleEntryC)], list := [staleEntryC], defaultTtlMs := 30000,
    maxSize := none, stats := Stats.zero }

/-- Two fresh entries in a store bounded at two entries (`entryA` is the
least recently used). -/
def entryA : CacheEntry Nat Nat := ⟨1, 11, 1000, 1000⟩

def entryB : CacheEntry Nat Nat := ⟨2, 22, 1000, 1000⟩

def boundedStateC : CacheState Nat Nat :=
  { map := [(1, entryA), (2, entryB)], list := [entryB, entryA],
    defaultTtlMs := 30000, maxSize := some 2, stats := Stats.zero }

/-- `getOrSet` options with ttl 1000 and SWR window 200. -/
def swrOptsC : GetOrSetOpts := ⟨some 1000, some 200, true, false, false⟩

/-- A system at time 100 whose store holds only the stale entry, with one
ready caller for its key. -/
def staleSysC : Sys Nat Nat :=
  { cache := staleStateC
    inflight := []
    ops := []
    settled := []
    procs := [⟨1, swrOptsC, ProcState.ready⟩]
    loaderCalls := 0
    nextPid := 0
    now := 100
    log := [] }

/-- A system with one pending loader promise (pid 0, key 7): caller 0
created and registered it, caller 1 attached to it carrying an abort
signal. -/
def sysWaitC : Sys Nat Nat :=
  { cache := mkCacheState none none
    inflight := [(7, 0)]
    ops := [⟨0, 7, none, none, false⟩]
    settled := []
    procs := [⟨7, optsPlain, ProcState.waiting 0 true⟩,
              ⟨7, optsSignal, ProcState.waiting 0 false⟩]
    loaderCalls := 1
    nextPid := 1
    now := 0
    log := [] }

/-- A system with one pending foreground load (pid 0) for key 3. -/
def sysLoadC : Sys Nat Nat :=
  { cache := mkCacheState none none
    inflight := [(3, 0)]
    ops := [⟨0, 3, some 10, none, false⟩]
    settled := []
    procs := [⟨3, ⟨some 10, none, true, false, false⟩, ProcState.waiting 0 true⟩]
    loaderCalls := 1
    nextPid := 1
    now := 0
    log := [] }

/-- One ready caller that carries a (not yet aborted) signal, over an empty
idle system: it will create and register the load, then be cancelled. -/
def sysSigC : Sys Nat Nat :=
  { cache := mkCacheState none none
    inflight := []
    ops := []
    settled := []
    procs := [⟨0, optsSignal, ProcState.ready⟩]
    loaderCalls := 0
    nextPid := 0
    now := 0
    log := [] }

/-- An idle system with an empty cache and the given callers. -/
def mkSysC (procs : List (Proc Nat Nat)) : Sys Nat Nat :=
  { cache := mkCacheState none none
    inflight := []
    ops := []
    settled := []
    procs := procs
    loaderCalls := 0
    nextPid := 0
    now := 0
    log := [] }

/-! ### Scenario predicates for the at-most-one-loader property -/

def isStartL {K V : Type} : Label K V → Bool
  | Label.start _ => true
  | _ => false

def isSettleL {K V : Type} : Label K V → Bool
  | Label.settle _ _ => true
  | _ => false

/-- Labels of the `getOrSet` protocol itself: the at-most-one-loader
scenario is N concurrent `getOrSet` calls with no other operation running
on the cache. -/
def isCallLabel {K V : Type} : Label K V → Bool
  | Label.start _ => true
  | Label.settle _ _ => true
  | Label.complete _ => true
  | Label.abortSig _ => true
  | _ => false

/-- Every `start` label precedes every `settle` label — the calls are
concurrent in the sense that each of them begins before the loader
settles. -/
def startsBeforeSettles {K V : Type} : List (Label K V) → Bool
  | [] => true
  | l :: rest =>
      if isSettleL l then rest.all (fun l2 => !(isStartL l2))
      else startsBeforeSettles rest

def allDone {K V : Type} (sys : Sys K V) : Bool :=
  sys.procs.all fun p =>
    match p.state with
    | ProcState.done _ => true
    | _ => false

/-- Phase 1 of the dedupe scenario: nothing has happened yet; any entry
stored under the key is neither fresh nor stale (i.e. no servable entry);
every caller is ready, keyed at `k`, with default options. -/
def C1Pre1 {K V : Type} [DecidableEq K] (sys : Sys K V) (k : K) : Prop :=
  (alistKeys sys.cache.map).Nodup ∧
  (∀ p ∈ sys.cache.map, p.1 = k →
    p.2.isFresh sys.now = false ∧ p.2.isStale sys.now = false) ∧
  sys.inflight = [] ∧ sys.ops = [] ∧ sys.settled = [] ∧
  sys.loaderCalls = 0 ∧ sys.nextPid = 0 ∧
  (∀ p ∈ sys.procs, p = ⟨k, optsPlain, ProcState.ready⟩)

/-- Phase 2: the first caller has invoked the loader exactly once and
registered promise 0; every caller is still ready or waiting on promise
0. -/
def C1Pre2 {K V : Type} [DecidableEq K] (sys : Sys K V) (k : K) : Prop :=
  (alistKeys sys.cache.map).Nodup ∧
  (∀ p ∈ sys.cache.map, p.1 = k →
    p.2.isFresh sys.now = false ∧ p.2.isStale sys.now = false) ∧
  sys.inflight = [(k, 0)] ∧ sys.ops = [⟨0, k, none, none, false⟩] ∧
  sys.settled = [] ∧ sys.loaderCalls = 1 ∧ sys.nextPid = 1 ∧
  (∀ p ∈ sys.procs, p = ⟨k, optsPlain, ProcState.ready⟩ ∨
    ∃ c, p = ⟨k, optsPlain, ProcState.waiting 0 c⟩)

/-- Phase 3: promise 0 settled with outcome `o`; the loader ran exactly
once and every caller is ready, waiting on promise 0, or settled with
`o`'s result. -/
def C1Post {K V : Type} [DecidableEq K] (sys : Sys K V) (k : K)
    (o : LoadOutcome V) : Prop :=
  sys.ops = [] ∧ sys.settled = [(0, o)] ∧ sys.loaderCalls = 1 ∧
  (∀ p ∈ sys.procs, p = ⟨k, optsPlain, ProcState.ready⟩ ∨
    (∃ c, p = ⟨k, optsPlain, ProcState.waiting 0 c⟩) ∨
    p = ⟨k, optsPlain, ProcState.done o.toResult⟩)

/-- The initial state of the dedupe scenario: phase 1 with at least one
caller. -/
def C1Init {K V : Type} [DecidableEq K] (sys : Sys K V) (k : K) : Prop :=
  C1Pre1 sys k ∧ sys.procs ≠ []

instance {K V : Type} [DecidableEq K] [DecidableEq V] (sys : Sys K V) (k : K) :
    Decidable (C1Pre1 sys k) := by
  unfold C1Pre1
  infer_instance

instance {K V : Type} [DecidableEq K] [DecidableEq V] (sys : Sys K V) (k : K) :
    Decidable (C1Init sys k) := by
  unfold C1Init
  infer_instance

/-- Two concurrent callers for key 0 over an idle empty system. -/
def c1SysC : Sys Nat Nat :=
  mkSysC [⟨0, optsPlain, ProcState.ready⟩, ⟨0, optsPlain, ProcState.ready⟩]

/-- A complete schedule of the two-caller dedupe scenario: both calls
start, the loader resolves with 7, both callers resume. -/
def c1TraceC : List (Label Nat Nat) :=
  [Label.start 0, Label.start 1, Label.settle 0 (LoadOutcome.ok 7),
   Label.complete 0, Label.complete 1]

/-! ## Theorems -/

section AlistLemmas

variable {K α : Type} [DecidableEq K]

theorem alistLookup_mem {m : List (K × α)} {k : K} {a : α}
    (h : alistLookup m k = some a) : (k, a) ∈ m := by
  induction m with
  | nil => simp [alistLookup] at h
  | cons p rest ih =>
      obtain ⟨k1, a1⟩ := p
      by_cases hk : k1 = k
      · subst hk
        simp [alistLookup] at h
        simp [h]
      · simp [alistLookup, hk] at h
        exact List.mem_cons_of_mem _ (ih h)

theorem alistLookup_eq_none {m : List (K × α)} {k : K} :
    alistLookup m k = none ↔ k ∉ alistKeys m := by
  induction m with
  | nil => simp [alistLookup, alistKeys]
  | cons p rest ih =>
      obtain ⟨k1, a1⟩ := p
      by_cases hk : k1 = k
      · subst hk; simp [alistLookup, alistKeys]
      · simp [alistLookup, alistKeys, hk, Ne.symm hk] at *
        exact ih

theorem alistLookup_isSome_of_mem {m : List (K × α)} {k : K} {a : α}
    (h : (k, a) ∈ m) : (alistLookup m k).isSome := by
  induction m with
  | nil => simp at h
  | cons p rest ih =>
      obtain ⟨k1, a1⟩ := p
      rcases List.mem_cons.mp h with h1 | h1
      · obtain ⟨rfl, rfl⟩ := Prod.mk.injEq .. ▸ h1
        simp [alistLookup]
      · by_cases hk : k1 = k
        · simp [alistLookup, hk]
        · simpa [alistLookup, hk] using ih h1

theorem alistLookup_of_mem_nodup {m : List (K × α)} {k : K} {a : α}
    (hnd : (alistKeys m).Nodup) (h : (k, a) ∈ m) : alistLookup m k = some a := by
  induction m with
  | nil => simp at h
  | cons p rest ih =>
      obtain ⟨k1, a1⟩ := p
      simp only [alistKeys, List.map_cons, List.nodup_cons] at hnd
      rcases List.mem_cons.mp h with h1 | h1
      · obtain ⟨rfl, rfl⟩ := Prod.mk.injEq .. ▸ h1
        simp [alistLookup]
      · have hk : k1 ≠ k := by
          intro he
          subst he
          exact hnd.1 (by simpa [alistKeys] using List.mem_map_of_mem Prod.fst h1)
        simp [alistLookup, hk]
        exact ih hnd.2 h1

theorem alistLookup_alistSet_self (m : List (K × α)) (k : K) (a : α) :
    alistLookup (alistSet m k a) k = some a := by
  induction m with
  | nil => simp [alistSet, alistLookup]
  | cons p rest ih =>
      obtain ⟨k1, a1⟩ := p
      by_cases hk : k1 = k
      · simp [alistSet, hk, alistLookup]
      · simp [alistSet, hk, alistLookup, ih]

theorem alistLookup_alistSet_ne (m : List (K × α)) {k k1 : K} (a : α)
    (hne : k ≠ k1) : alistLookup (alistSet m k a) k1 = alistLookup m k1 := by
  induction m with
  | nil => simp [alistSet, alistLookup, hne]
  | cons p rest ih =>
      obtain ⟨k2, a2⟩ := p
      by_cases hk : k2 = k
      · subst hk
        simp [alistSet, alistLookup, hne]
      · simp [alistSet, hk, alistLookup, ih]

theorem alistKeys_alistSet_mem {m : List (K × α)} {k : K} (a : α)
    (h : k ∈ alistKeys m) : alistKeys (alistSet m k a) = alistKeys m := by
  induction m with
  | nil => simp [alistKeys] at h
  | cons p rest ih =>
      obtain ⟨k1, a1⟩ := p
      by_cases hk : k1 = k
      · simp [alistSet, hk, alistKeys]
      · have h2 : k ∈ alistKeys rest := by
          have h3 : k = k1 ∨ ∃ x, (k, x) ∈ rest := by simpa [alistKeys] using h
          rcases h3 with h1 | ⟨x, hx⟩
          · exact absurd h1.symm hk
          · exact List.mem_map_of_mem Prod.fst hx
        simp only [alistSet, if_neg hk, alistKeys, List.map_cons]
        rw [show List.map Prod.fst (alistSet rest k a) = alistKeys (alistSet rest k a) from rfl,
          ih h2]
        rfl

theorem alistKeys_alistSet_not_mem {m : List (K × α)} {k : K} (a : α)
    (h : k ∉ alistKeys m) : alistKeys (alistSet m k a) = alistKeys m ++ [k] := by
  induction m with
  | nil => simp [alistSet, alistKeys]
  | cons p rest ih =>
      obtain ⟨k1, a1⟩ := p
      simp [alistKeys] at h
      push_neg at h
      simp [alistSet, Ne.symm h.1, alistKeys] at *
      exact ih h.2

theorem alistKeys_alistDelete (m : List (K × α)) (k : K) :
    alistKeys (alistDelete m k) = (alistKeys m).erase k := by
  induction m with
  | nil => simp [alistDelete, alistKeys]
  | cons p rest ih =>
      obtain ⟨k1, a1⟩ := p
      by_cases hk : k1 = k
      · simp [alistDelete, hk, alistKeys, List.erase_cons]
      · simp only [alistDelete, if_neg hk, alistKeys, List.map_cons,
          List.erase_cons, beq_iff_eq, if_neg hk]
        rw [show List.map Prod.fst (alistDelete rest k) = alistKeys (alistDelete rest k) from rfl,
          ih]
        rfl

theorem alistLookup_alistDelete_self {m : List (K × α)}
    (hnd : (alistKeys m).Nodup) (k : K) :
    alistLookup (alistDelete m k) k = none := by
  rw [alistLookup_eq_none, alistKeys_alistDelete]
  exact hnd.not_mem_erase

theorem alistLookup_alistDelete_ne (m : List (K × α)) {k k1 : K} (hne : k ≠ k1) :
    alistLookup (alistDelete m k) k1 = alistLookup m k1 := by
  induction m with
  | nil => simp [alistDelete]
  | cons p rest ih =>
      obtain ⟨k2, a2⟩ := p
      by_cases hk : k2 = k
      · subst hk
        simp [alistDelete, alistLookup, hne]
      · simp [alistDelete, hk, alistLookup, ih]

theorem nodup_alistSet {m : List (K × α)} (hnd : (alistKeys m).Nodup)
    (k : K) (a : α) : (alistKeys (alistSet m k a)).Nodup := by
  by_cases h : k ∈ alistKeys m
  · rw [alistKeys_alistSet_mem a h]; exact hnd
  · rw [alistKeys_alistSet_not_mem a h]
    simpa [List.nodup_append] using ⟨hnd, fun hx => h hx⟩

theorem nodup_alistDelete {m : List (K × α)} (hnd : (alistKeys m).Nodup)
    (k : K) : (alistKeys (alistDelete m k)).Nodup := by
  rw [alistKeys_alistDelete]
  exact hnd.erase k

theorem mem_alistDelete_of_mem {m : List (K × α)} {k : K} {p : K × α}
    (h : p ∈ alistDelete m k) : p ∈ m := by
  induction m with
  | nil => simpa [alistDelete] using h
  | cons q rest ih =>
      obtain ⟨k1, a1⟩ := q
      by_cases hk : k1 = k
      · simp only [alistDelete, if_pos hk] at h
        exact List.mem_cons_of_mem _ h
      · simp only [alistDelete, if_neg hk] at h
        rcases List.mem_cons.mp h with h1 | h1
        · exact h1 ▸ List.mem_cons_self _ _
        · exact List.mem_cons_of_mem _ (ih h1)

theorem mem_alistDelete_of_ne {m : List (K × α)} {k : K} {p : K × α}
    (h : p ∈ m) (hne : p.1 ≠ k) : p ∈ alistDelete m k := by
  induction m with
  | nil => simp at h
  | cons q rest ih =>
      obtain ⟨k1, a1⟩ := q
      rcases List.mem_cons.mp h with h1 | h1
      · subst h1
        simp only [alistDelete]
        rw [if_neg (by simpa using hne)]
        exact List.mem_cons_self _ _
      · by_cases hk : k1 = k
        · simpa [alistDelete, hk] using h1
        · simp only [alistDelete, if_neg hk]
          exact List.mem_cons_of_mem _ (ih h1)

theorem mem_alistSet_elim {m : List (K × α)} (hnd : (alistKeys m).Nodup)
    {k : K} {a : α} {p : K × α}
    (h : p ∈ alistSet m k a) : p = (k, a) ∨ (p ∈ m ∧ p.1 ≠ k) := by
  induction m with
  | nil => simp [alistSet] at h; exact Or.inl h
  | cons q rest ih =>
      obtain ⟨k1, a1⟩ := q
      have hnd2 : (alistKeys rest).Nodup ∧ k1 ∉ alistKeys rest := by
        have := hnd
        simp only [alistKeys, List.map_cons, List.nodup_cons] at this
        exact ⟨this.2, this.1⟩
      by_cases hk : k1 = k
      · subst hk
        simp only [alistSet, if_pos rfl] at h
        rcases List.mem_cons.mp h with h1 | h1
        · exact Or.inl h1
        · refine Or.inr ⟨List.mem_cons_of_mem _ h1, fun he => ?_⟩
          exact hnd2.2 (he ▸ List.mem_map_of_mem Prod.fst h1)
      · simp only [alistSet, if_neg hk] at h
        rcases List.mem_cons.mp h with h1 | h1
        · subst h1
          exact Or.inr ⟨List.mem_cons_self _ _, by simpa using hk⟩
        · rcases ih hnd2.1 h1 with h2 | h2
          · exact Or.inl h2
          · exact Or.inr ⟨List.mem_cons_of_mem _ h2.1, h2.2⟩

end AlistLemmas

section EntryListLemmas

variable {K V : Type} [DecidableEq K]

theorem map_key_removeKey (l : List (CacheEntry K V)) (k : K) :
    (removeKey l k).map CacheEntry.key = (l.map CacheEntry.key).erase k := by
  induction l with
  | nil => simp [removeKey]
  | cons e rest ih =>
      by_cases hk : e.key = k
      · simp [removeKey, hk, List.erase_cons]
      · simp [removeKey, hk, List.erase_cons, ih]

theorem mem_removeKey_of_mem {l : List (CacheEntry K V)} {k : K}
    {e : CacheEntry K V} (h : e ∈ removeKey l k) : e ∈ l := by
  induction l with
  | nil => simpa [removeKey] using h
  | cons e1 rest ih =>
      by_cases hk : e1.key = k
      · simp only [removeKey, if_pos hk] at h
        exact List.mem_cons_of_mem _ h
      · simp only [removeKey, if_neg hk] at h
        rcases List.mem_cons.mp h with h1 | h1
        · exact h1 ▸ List.mem_cons_self _ _
        · exact List.mem_cons_of_mem _ (ih h1)

theorem mem_removeKey_of_ne {l : List (CacheEntry K V)} {k : K}
    {e : CacheEntry K V} (h : e ∈ l) (hne : e.key ≠ k) : e ∈ removeKey l k := by
  induction l with
  | nil => simp at h
  | cons e1 rest ih =>
      rcases List.mem_cons.mp h with h1 | h1
      · subst h1
        simp only [removeKey, if_neg hne]
        exact List.mem_cons_self _ _
      · by_cases hk : e1.key = k
        · simpa [removeKey, hk] using h1
        · simp only [removeKey, if_neg hk]
          exact List.mem_cons_of_mem _ (ih h1)

theorem key_not_mem_removeKey {l : List (CacheEntry K V)} {k : K}
    (hnd : (l.map CacheEntry.key).Nodup) {e : CacheEntry K V}
    (h : e ∈ removeKey l k) : e.key ≠ k := by
  intro hke
  have h1 : e.key ∈ (removeKey l k).map CacheEntry.key :=
    List.mem_map_of_mem CacheEntry.key h
  rw [map_key_removeKey, hke] at h1
  exact hnd.not_mem_erase h1

theorem map_key_updateEntry {l : List (CacheEntry K V)} {k : K}
    {e : CacheEntry K V} (hk : e.key = k) :
    (updateEntry l k e).map CacheEntry.key = l.map CacheEntry.key := by
  induction l with
  | nil => simp [updateEntry]
  | cons e1 rest ih =>
      by_cases h1 : e1.key = k
      · simp only [updateEntry, List.map_cons, if_pos h1, List.map_cons] at *
        rw [hk, h1]
        exact congrArg _ ih
      · simp only [updateEntry, List.map_cons, if_neg h1] at *
        exact congrArg _ ih

theorem mem_updateEntry_elim {l : List (CacheEntry K V)} {k : K}
    {e e1 : CacheEntry K V} (h : e1 ∈ updateEntry l k e) :
    e1 = e ∨ (e1 ∈ l ∧ e1.key ≠ k) := by
  rcases List.mem_map.mp h with ⟨e2, he2, heq⟩
  by_cases h2 : e2.key = k
  · simp only [if_pos h2] at heq
    exact Or.inl heq.symm
  · simp only [if_neg h2] at heq
    exact Or.inr ⟨heq ▸ he2, heq ▸ h2⟩

theorem mem_updateEntry_self {l : List (CacheEntry K V)} {k : K}
    {e old : CacheEntry K V} (hold : old ∈ l) (hk : old.key = k) :
    e ∈ updateEntry l k e :=
  List.mem_map.mpr ⟨old, hold, by simp [hk]⟩

theorem mem_updateEntry_of_ne {l : List (CacheEntry K V)} {k : K}
    {e e1 : CacheEntry K V} (h : e1 ∈ l) (hne : e1.key ≠ k) :
    e1 ∈ updateEntry l k e :=
  List.mem_map.mpr ⟨e1, h, by simp [hne]⟩

theorem map_key_moveToFront_nodup {l : List (CacheEntry K V)}
    {e : CacheEntry K V}
    (hnd : (l.map CacheEntry.key).Nodup) (he : e ∈ l) :
    ((moveToFront l e).map CacheEntry.key).Nodup ∧
      ∀ e1 ∈ moveToFront l e, e1 = e ∨ (e1 ∈ l ∧ e1.key ≠ e.key) := by
  unfold moveToFront
  by_cases hh : l.head?.map CacheEntry.key = some e.key
  · rw [if_pos hh]
    refine ⟨hnd, fun e1 h1 => ?_⟩
    by_cases hke : e1.key = e.key
    · left
      have hkey_inj : ∀ a ∈ l, ∀ b ∈ l, a.key = b.key → a = b := by
        intro a ha b hb hab
        exact List.inj_on_of_nodup_map hnd ha hb hab
      exact hkey_inj e1 h1 e he hke
    · exact Or.inr ⟨h1, hke⟩
  · rw [if_neg hh]
    constructor
    · simp only [List.map_cons, List.nodup_cons, map_key_removeKey]
      exact ⟨hnd.not_mem_erase, hnd.erase _⟩
    · intro e1 h1
      rcases List.mem_cons.mp h1 with h2 | h2
      · exact Or.inl h2
      · exact Or.inr ⟨mem_removeKey_of_mem h2, key_not_mem_removeKey hnd h2⟩

end EntryListLemmas

section RunLemmas

variable {K V : Type} [DecidableEq K]

theorem run_append (sys : Sys K V) (tr1 tr2 : List (Label K V)) :
    run sys (tr1 ++ tr2) = (run sys tr1).bind (fun s => run s tr2) := by
  induction tr1 generalizing sys with
  | nil => simp [run]
  | cons l ls ih =>
      simp only [List.cons_append, run]
      cases step sys l with
      | none => simp
      | some sys1 => simpa using ih sys1

end RunLemmas

section FreshnessLemmas

variable {K V : Type}

theorem isFresh_false_of_isStale {e : CacheEntry K V} {now : Int}
    (h : e.isStale now = true) : e.isFresh now = false := by
  simp [CacheEntry.isStale] at h
  simp [CacheEntry.isFresh]
  omega

theorem isExpired_false_of_isStale {e : CacheEntry K V} {now : Int}
    (h : e.isStale now = true) : e.isExpired now = false := by
  simp [CacheEntry.isStale] at h
  simp [CacheEntry.isExpired]
  omega

theorem isFresh_false_of_isExpired {e : CacheEntry K V} {now : Int}
    (hw : e.expiresAt ≤ e.staleUntil) (h : e.isExpired now = true) :
    e.isFresh now = false := by
  simp [CacheEntry.isExpired] at h
  simp [CacheEntry.isFresh]
  omega

theorem isStale_false_of_isFresh {e : CacheEntry K V} {now : Int}
    (h : e.isFresh now = true) : e.isStale now = false := by
  simp [CacheEntry.isFresh] at h
  simp [CacheEntry.isStale]
  omega

end FreshnessLemmas

section CacheOpLemmas

variable {K V : Type} [DecidableEq K]

theorem enforceMaxSize_none {s : CacheState K V} (h : s.maxSize = none) :
    TtlCache.enforceMaxSize s = (s, []) := by
  unfold TtlCache.enforceMaxSize
  rw [h]

theorem head_moveToFront {l : List (CacheEntry K V)} {e : CacheEntry K V}
    (hnd : (l.map CacheEntry.key).Nodup) (he : e ∈ l) :
    (moveToFront l e).head? = some e := by
  unfold moveToFront
  by_cases hh : l.head?.map CacheEntry.key = some e.key
  · rw [if_pos hh]
    cases l with
    | nil => simp at hh
    | cons a rest =>
        simp only [List.head?_cons, Option.map_some] at hh
        have ha : a = e :=
          List.inj_on_of_nodup_map hnd (List.mem_cons_self a rest) he
            (by injection hh)
        simp [ha]
  · rw [if_neg hh]
    rfl

end CacheOpLemmas

/-! ### Claim C7: timestamp computation of explicit set and loader writes -/

/-- **C7**: every explicit `set` computes `expiresAt = now + ttl` (per-call
override or configured default, itself defaulting to 30000 ms) and writes
`staleUntil = expiresAt` (no SWR window); every successful `getOrSet` load
writes, through `setWithSwr`, `expiresAt = now + ttl` and `staleUntil =
expiresAt + swrWindow` with the SWR window defaulting to 0. -/
theorem claimC7_write_windows {K V : Type} [DecidableEq K]
    (s : CacheState K V) (now : Int) (key : K) (value : V)
    (ttlMs swrMs : Option Int) (hmax : s.maxSize = none) :
    (∃ e, alistLookup (TtlCache.set s now key value ttlMs).1.map key = some e ∧
       e.value = value ∧
       e.expiresAt = now + ttlMs.getD s.defaultTtlMs ∧
       e.staleUntil = e.expiresAt) ∧
    (∃ e,
       alistLookup (TtlCache.setWithSwr s now key value ttlMs swrMs).1.map key
         = some e ∧
       e.value = value ∧
       e.expiresAt = now + ttlMs.getD s.defaultTtlMs ∧
       e.staleUntil = e.expiresAt + swrMs.getD 0) ∧
    (@mkCacheState K V none none).defaultTtlMs = 30000 := by
  refine ⟨?_, ?_, rfl⟩
  · unfold TtlCache.set
    cases hl : alistLookup s.map key with
    | some existing =>
        refine ⟨⟨existing.key, value, now + ttlMs.getD s.defaultTtlMs,
          now + ttlMs.getD s.defaultTtlMs⟩, ?_, rfl, rfl, rfl⟩
        exact alistLookup_alistSet_self _ _ _
    | none =>
        refine ⟨⟨key, value, now + ttlMs.getD s.defaultTtlMs,
          now + ttlMs.getD s.defaultTtlMs⟩, ?_, rfl, rfl, rfl⟩
        show alistLookup (TtlCache.enforceMaxSize _).1.map key = _
        simp only [TtlCache.enforceMaxSize, hmax]
        exact alistLookup_alistSet_self _ _ _
  · unfold TtlCache.setWithSwr
    cases hl : alistLookup s.map key with
    | some existing =>
        refine ⟨⟨existing.key, value, now + ttlMs.getD s.defaultTtlMs,
          now + ttlMs.getD s.defaultTtlMs + swrMs.getD 0⟩, ?_, rfl, rfl, rfl⟩
        exact alistLookup_alistSet_self _ _ _
    | none =>
        refine ⟨⟨key, value, now + ttlMs.getD s.defaultTtlMs,
          now + ttlMs.getD s.defaultTtlMs + swrMs.getD 0⟩, ?_, rfl, rfl, rfl⟩
        show alistLookup (TtlCache.enforceMaxSize _).1.map key = _
        simp only [TtlCache.enforceMaxSize, hmax]
        exact alistLookup_alistSet_self _ _ _

/-- Witness for C7 at a concrete store. -/
theorem claimC7_witness :
    staleStateC.maxSize = none ∧
    (∃ e, alistLookup (TtlCache.set staleStateC 0 2 9 (some 100)).1.map 2
        = some e ∧
      e.value = 9 ∧ e.expiresAt = 0 + (some (100 : Int)).getD
        staleStateC.defaultTtlMs ∧ e.staleUntil = e.expiresAt) :=
  ⟨by decide,
   (claimC7_write_windows staleStateC 0 2 9 (some 100) (some 50) (by decide)).1⟩

/-! ### Claim C5: `get` never serves stale -/

/-- **C5**: `get(key)` returns the value only when the entry is fresh; a
stale entry yields "not found" plus a recorded miss and is left in place
(even though `getOrSet` would serve it); a fully expired entry is removed
with reason `expired` as a side effect of the read (and a miss recorded); a
fresh hit promotes the entry to most-recent and records a hit.  The
hypothesis `e.expiresAt ≤ e.staleUntil` is the data-model invariant
(`staleUntil ≥ expiresAt` always). -/
theorem claimC5_get_never_serves_stale {K V : Type} [DecidableEq K]
    (s : CacheState K V) (now : Int) (key : K) (e : CacheEntry K V)
    (hwf : WF s) (he : alistLookup s.map key = some e)
    (hws : e.expiresAt ≤ e.staleUntil) :
    (e.isFresh now = true →
      TtlCache.get s now key =
        (some e.value,
         { s with list := moveToFront s.list e,
                  stats := { s.stats with hits := s.stats.hits + 1 } },
         [Eff.emitHit key e.value]) ∧
      (moveToFront s.list e).head? = some e) ∧
    (e.isStale now = true →
      TtlCache.get s now key =
        (none,
         { s with stats := { s.stats with misses := s.stats.misses + 1 } },
         [Eff.emitMiss key])) ∧
    (e.isExpired now = true →
      (TtlCache.get s now key).1 = none ∧
      alistLookup (TtlCache.get s now key).2.1.map key = none ∧
      (TtlCache.get s now key).2.1.list = removeKey s.list key ∧
      (TtlCache.get s now key).2.2 =
        [Eff.onEvict key e.value EvictReason.expired,
         Eff.emitEvict key e.value, Eff.emitMiss key] ∧
      (TtlCache.get s now key).2.1.stats =
        { s.stats with misses := s.stats.misses + 1,
                       evictions := s.stats.evictions + 1 }) := by
  have hmem := alistLookup_mem he
  have hkey : e.key = key := (hwf.2.2.1 _ hmem).1
  have hlist : e ∈ s.list := (hwf.2.2.1 _ hmem).2
  have hmem := alistLookup_mem he
  refine ⟨?_, ?_, ?_⟩
  · intro hf
    constructor
    · simp [TtlCache.get, he, hf]
    · exact head_moveToFront hwf.2.1 hlist
  · intro hst
    simp [TtlCache.get, he, isFresh_false_of_isStale hst,
      isExpired_false_of_isStale hst]
  · intro hex
    have hf : e.isFresh now = false := isFresh_false_of_isExpired hws hex
    have hg : TtlCache.get s now key =
        (none,
         { s with
            list := removeKey s.list e.key
            map := alistDelete s.map e.key
            stats := { s.stats with
              misses := s.stats.misses + 1
              evictions := s.stats.evictions + 1 } },
         [Eff.onEvict e.key e.value EvictReason.expired,
          Eff.emitEvict e.key e.value, Eff.emitMiss key]) := by
      simp [TtlCache.get, he, hf, hex, TtlCache.removeEntry]
    rw [hg, hkey]
    exact ⟨rfl, alistLookup_alistDelete_self hwf.1 key, rfl, rfl, rfl⟩

/-- Witness for C5: a fresh entry, a stale entry and an expired entry, each
read through `get` at time 100. -/
theorem claimC5_witness :
    (WF staleStateC ∧ alistLookup staleStateC.map 1 = some staleEntryC ∧
      staleEntryC.expiresAt ≤ staleEntryC.staleUntil ∧
      staleEntryC.isStale 100 = true) ∧
    TtlCache.get staleStateC 100 1 =
      (none,
       { staleStateC with stats :=
          { staleStateC.stats with misses := staleStateC.stats.misses + 1 } },
       [Eff.emitMiss 1]) :=
  ⟨⟨by decide, by decide, by decide, by decide⟩,
   (claimC5_get_never_serves_stale staleStateC 100 1 staleEntryC (by decide)
      (by decide) (by decide)).2.1 (by decide)⟩

/-! ### Claim C2: `peek` and the freshness check (corrected) -/

/-- **C2 counterexample**: the claim says `peek` applies the same freshness
check as `get`, returning `undefined` for a stale entry.  In the source,
`peek` only checks `isExpired`: at time 100 the entry with `expiresAt = 50`,
`staleUntil = 200` is stale, `get` misses, yet `peek` returns its value. -/
theorem claimC2_counterexample :
    staleEntryC.isStale 100 = true ∧
    (TtlCache.get staleStateC 100 1).1 = none ∧
    (TtlCache.peek staleStateC 100 1).1 = some 5 := by
  decide

/-- **C2 (amended)**: `peek(key)` checks only full expiry, not freshness:
it returns the value for fresh and stale entries alike (weaker than `get`,
which also rejects stale entries); it never touches the recency order,
statistics or any other state on a non-expired read; a fully expired entry
is removed with reason `expired`; a missing key returns nothing and changes
nothing. -/
theorem claimC2_peek_no_freshness_check {K V : Type} [DecidableEq K]
    (s : CacheState K V) (now : Int) (key : K) :
    (∀ e, alistLookup s.map key = some e → e.isExpired now = false →
      TtlCache.peek s now key = (some e.value, s, [])) ∧
    (∀ e, alistLookup s.map key = some e → e.isExpired now = true →
      (TtlCache.peek s now key).1 = none ∧
      (TtlCache.peek s now key).2.1.map = alistDelete s.map e.key ∧
      (TtlCache.peek s now key).2.1.list = removeKey s.list e.key ∧
      (TtlCache.peek s now key).2.2 =
        [Eff.onEvict e.key e.value EvictReason.expired,
         Eff.emitEvict e.key e.value]) ∧
    (alistLookup s.map key = none → TtlCache.peek s now key = (none, s, [])) := by
  refine ⟨?_, ?_, ?_⟩
  · intro e he hne
    simp [TtlCache.peek, he, hne]
  · intro e he hex
    have hp : TtlCache.peek s now key =
        (none,
         { s with
            list := removeKey s.list e.key
            map := alistDelete s.map e.key
            stats := { s.stats with evictions := s.stats.evictions + 1 } },
         [Eff.onEvict e.key e.value EvictReason.expired,
          Eff.emitEvict e.key e.value]) := by
      simp [TtlCache.peek, he, hex, TtlCache.removeEntry]
    rw [hp]
    exact ⟨rfl, rfl, rfl, rfl⟩
  · intro hnone
    simp [TtlCache.peek, hnone]

/-- Witness for C2 (amended): `peek` on the stale entry returns the value
and leaves the store untouched. -/
theorem claimC2_witness :
    (alistLookup staleStateC.map 1 = some staleEntryC ∧
      staleEntryC.isExpired 100 = false) ∧
    TtlCache.peek staleStateC 100 1 = (some 5, staleStateC, []) :=
  ⟨⟨by decide, by decide⟩,
   by
    have h := (claimC2_peek_no_freshness_check staleStateC 100 1).1 staleEntryC
      (by decide) (by decide)
    simpa using h⟩

/-! ### Well-formedness preservation lemmas -/

section WFLemmas

variable {K V : Type} [DecidableEq K]

theorem mem_alistDelete_ne_key {m : List (K × CacheEntry K V)}
    (hnd : (alistKeys m).Nodup) {k : K} {p : K × CacheEntry K V}
    (h : p ∈ alistDelete m k) : p.1 ≠ k := by
  intro he
  have h1 : p.1 ∈ alistKeys (alistDelete m k) :=
    List.mem_map_of_mem Prod.fst h
  rw [alistKeys_alistDelete, he] at h1
  exact hnd.not_mem_erase h1

theorem map_length_le_list_length {s : CacheState K V} (hwf : WF s) :
    s.map.length ≤ s.list.length := by
  have hsub : alistKeys s.map ⊆ s.list.map CacheEntry.key := by
    intro k hk
    rcases List.mem_map.mp hk with ⟨p, hp, hpk⟩
    have h1 := hwf.2.2.1 p hp
    exact hpk ▸ h1.1 ▸ List.mem_map_of_mem CacheEntry.key h1.2
  have hlen : (alistKeys s.map).length ≤ (s.list.map CacheEntry.key).length :=
    List.Subperm.length_le (List.subperm_of_subset hwf.1 hsub)
  simpa [alistKeys] using hlen

/-- Removing the tail entry from both views preserves well-formedness
(the statistics fields are irrelevant to `WF`). -/
theorem WF_evictTail {m : List (K × CacheEntry K V)} {l : List (CacheEntry K V)}
    {d : Int} {ms : Option Nat} {st st2 : Stats}
    (hwf : WF (⟨m, l, d, ms, st⟩ : CacheState K V)) {evicted : CacheEntry K V}
    (h : l.getLast? = some evicted) :
    WF (⟨alistDelete m evicted.key, l.dropLast, d, ms, st2⟩ : CacheState K V) := by
  obtain ⟨hnd, hlnd, hmap, hlist⟩ := hwf
  have hsplit : l.dropLast ++ [evicted] = l :=
    List.dropLast_append_getLast? evicted (by simpa using h)
  have hlk : l.map CacheEntry.key =
      l.dropLast.map CacheEntry.key ++ [evicted.key] := by
    conv_lhs => rw [← hsplit]
    simp
  have hparts := List.nodup_append.mp (hlk ▸ hlnd)
  have hnotin : evicted.key ∉ l.dropLast.map CacheEntry.key :=
    fun hx => hparts.2.2 hx (List.mem_singleton_self _)
  refine ⟨nodup_alistDelete hnd _, hparts.1, ?_, ?_⟩
  · intro p hp
    have hpm := mem_alistDelete_of_mem hp
    have hpk := mem_alistDelete_ne_key hnd hp
    obtain ⟨hk1, hin⟩ := hmap p hpm
    refine ⟨hk1, ?_⟩
    rw [← hsplit] at hin
    rcases List.mem_append.mp hin with h1 | h1
    · exact h1
    · exfalso
      have : p.2 = evicted := by simpa using h1
      exact hpk (hk1 ▸ this ▸ rfl)
  · intro e he
    have hel : e ∈ l := hsplit ▸ List.mem_append_left _ he
    have hne : e.key ≠ evicted.key := by
      intro hek
      exact hnotin (hek ▸ List.mem_map_of_mem CacheEntry.key he)
    rw [alistLookup_alistDelete_ne m (fun hx => hne hx.symm)]
    exact hlist e hel

/-- Inserting a fresh key into both views preserves well-formedness. -/
theorem WF_insertNew {m : List (K × CacheEntry K V)} {l : List (CacheEntry K V)}
    {d : Int} {ms : Option Nat} {st st2 : Stats}
    (hwf : WF (⟨m, l, d, ms, st⟩ : CacheState K V)) {k : K} {e : CacheEntry K V}
    (hk : e.key = k) (habs : alistLookup m k = none) :
    WF (⟨alistSet m k e, e :: l, d, ms, st2⟩ : CacheState K V) := by
  obtain ⟨hnd, hlnd, hmap, hlist⟩ := hwf
  have hkm : k ∉ alistKeys m := alistLookup_eq_none.mp habs
  have hkl : k ∉ l.map CacheEntry.key := by
    intro hx
    rcases List.mem_map.mp hx with ⟨e1, he1, hke⟩
    have := hlist e1 he1
    rw [hke] at this
    rw [habs] at this
    exact Option.noConfusion this
  refine ⟨?_, ?_, ?_, ?_⟩
  · rw [alistKeys_alistSet_not_mem e hkm]
    simpa [List.nodup_append] using ⟨hnd, fun hx => hkm hx⟩
  · rw [List.map_cons, hk]
    exact List.nodup_cons.mpr ⟨hkl, hlnd⟩
  · intro p hp
    rcases mem_alistSet_elim hnd hp with h1 | ⟨h1, h2⟩
    · subst h1
      exact ⟨hk, List.mem_cons_self _ _⟩
    · obtain ⟨hp1, hp2⟩ := hmap p h1
      exact ⟨hp1, List.mem_cons_of_mem _ hp2⟩
  · intro e1 he1
    rcases List.mem_cons.mp he1 with h1 | h1
    · subst h1
      rw [hk]
      exact alistLookup_alistSet_self m k _
    · have hne : e1.key ≠ k := by
        intro hx
        exact hkl (hx ▸ List.mem_map_of_mem CacheEntry.key h1)
      rw [alistLookup_alistSet_ne m e (fun hx => hne hx.symm)]
      exact hlist e1 h1

/-- Updating the entry of an existing key in both views and promoting it
preserves well-formedness. -/
theorem WF_updateMove {m : List (K × CacheEntry K V)} {l : List (CacheEntry K V)}
    {d : Int} {ms : Option Nat} {st st2 : Stats}
    (hwf : WF (⟨m, l, d, ms, st⟩ : CacheState K V)) {k : K}
    {old e : CacheEntry K V}
    (hlook : alistLookup m k = some old) (hk : e.key = k) :
    WF (⟨alistSet m k e, moveToFront (updateEntry l k e) e, d, ms, st2⟩ :
      CacheState K V) := by
  obtain ⟨hnd, hlnd, hmap, hlist⟩ := hwf
  have hmemold := alistLookup_mem hlook
  obtain ⟨holdk, holdl⟩ := hmap _ hmemold
  have hupd_keys : (updateEntry l k e).map CacheEntry.key = l.map CacheEntry.key :=
    map_key_updateEntry hk
  have hupd_nd : ((updateEntry l k e).map CacheEntry.key).Nodup :=
    hupd_keys ▸ hlnd
  have hein : e ∈ updateEntry l k e := mem_updateEntry_self holdl holdk
  obtain ⟨hmv_nd, hmv_mem⟩ := map_key_moveToFront_nodup hupd_nd hein
  refine ⟨?_, hmv_nd, ?_, ?_⟩
  · exact nodup_alistSet hnd k e
  · intro p hp
    rcases mem_alistSet_elim hnd hp with h1 | ⟨h1, h2⟩
    · subst h1
      refine ⟨hk, ?_⟩
      unfold moveToFront
      by_cases hh : (updateEntry l k e).head?.map CacheEntry.key = some e.key
      · rw [if_pos hh]
        exact hein
      · rw [if_neg hh]
        exact List.mem_cons_self _ _
    · obtain ⟨hp1, hp2⟩ := hmap p h1
      refine ⟨hp1, ?_⟩
      have hpin : p.2 ∈ updateEntry l k e :=
        mem_updateEntry_of_ne hp2 (hp1 ▸ h2)
      unfold moveToFront
      by_cases hh : (updateEntry l k e).head?.map CacheEntry.key = some e.key
      · rw [if_pos hh]
        exact hpin
      · rw [if_neg hh]
        refine List.mem_cons_of_mem _ (mem_removeKey_of_ne hpin ?_)
        rw [hk]
        exact hp1 ▸ h2
  · intro e1 he1
    rcases hmv_mem e1 he1 with h1 | ⟨h1, h2⟩
    · subst h1
      rw [hk]
      exact alistLookup_alistSet_self m k _
    · rcases mem_updateEntry_elim h1 with h3 | ⟨h3, h4⟩
      · exact absurd (h3 ▸ rfl) h2
      · have hne : e1.key ≠ k := h4
        rw [alistLookup_alistSet_ne m e (fun hx => hne hx.symm)]
        exact hlist e1 h3

end WFLemmas

/-! ### Eviction loop lemmas -/

section EnforceLemmas

variable {K V : Type} [DecidableEq K]

theorem enforceMaxSizeGo_eq_stop (bound : Nat) (s : CacheState K V)
    (effs : List (Eff K V)) (hle : ¬ s.map.length > bound) :
    TtlCache.enforceMaxSizeGo bound s effs = (s, effs) := by
  rw [TtlCache.enforceMaxSizeGo]
  simp [hle]

theorem enforceMaxSizeGo_eq_none (bound : Nat) (s : CacheState K V)
    (effs : List (Eff K V)) (hgt : s.map.length > bound)
    (hnone : s.list.getLast? = none) :
    TtlCache.enforceMaxSizeGo bound s effs = (s, effs) := by
  rw [TtlCache.enforceMaxSizeGo]
  rw [if_pos hgt]
  split
  · rfl
  · rename_i evicted hsome
    rw [hnone] at hsome
    exact Option.noConfusion hsome

theorem enforceMaxSizeGo_eq_step (bound : Nat) (s : CacheState K V)
    (effs : List (Eff K V)) {evicted : CacheEntry K V}
    (hgt : s.map.length > bound) (hsome : s.list.getLast? = some evicted) :
    TtlCache.enforceMaxSizeGo bound s effs =
      TtlCache.enforceMaxSizeGo bound
        { s with list := s.list.dropLast,
                 map := alistDelete s.map evicted.key,
                 stats := { s.stats with evictions := s.stats.evictions + 1 } }
        (effs ++ [Eff.onEvict evicted.key evicted.value EvictReason.evicted,
                  Eff.emitEvict evicted.key evicted.value]) := by
  conv_lhs => rw [TtlCache.enforceMaxSizeGo]
  rw [if_pos hgt]
  split
  · rename_i hnone
    rw [hsome] at hnone
    exact Option.noConfusion hnone
  · rename_i ev2 hsome2
    rw [hsome] at hsome2
    injection hsome2 with h
    rw [h]

/-- The eviction loop only ever removes a suffix of the list (i.e. always
the current least-recently-used tail), and logs each removed entry, in
removal order, with reason `evicted`. -/
theorem enforceMaxSizeGo_shape (bound : Nat) (s : CacheState K V)
    (effs : List (Eff K V)) :
    ∃ j, j ≤ s.list.length ∧
      (TtlCache.enforceMaxSizeGo bound s effs).1.list = s.list.take j ∧
      (TtlCache.enforceMaxSizeGo bound s effs).2 = effs ++
        ((s.list.drop j).reverse.flatMap
          (fun e => [Eff.onEvict e.key e.value EvictReason.evicted,
                     Eff.emitEvict e.key e.value])) := by
  induction s, effs using @TtlCache.enforceMaxSizeGo.induct K V _ bound with
  | case1 s effs hgt hnone =>
      have hnil : s.list = [] := by
        cases hl : s.list with
        | nil => rfl
        | cons a rest => rw [hl] at hnone; simp [List.getLast?_concat] at hnone
      rw [enforceMaxSizeGo_eq_none bound s effs hgt hnone]
      exact ⟨0, by omega, by simp [hnil], by simp [hnil]⟩
  | case2 s effs hgt evicted hsome ih =>
      obtain ⟨j, hj, h1, h2⟩ := ih
      have hsplit : s.list.dropLast ++ [evicted] = s.list :=
        List.dropLast_append_getLast? evicted (by simpa using hsome)
      have hjlen : j ≤ s.list.dropLast.length := by simpa using hj
      rw [enforceMaxSizeGo_eq_step bound s effs hgt hsome]
      refine ⟨j, ?_, ?_, ?_⟩
      · have := s.list.dropLast_sublist.length_le
        omega
      · refine Eq.trans h1 ?_
        show s.list.dropLast.take j = s.list.take j
        conv_rhs => rw [← hsplit]
        rw [List.take_append_of_le_length hjlen]
      · refine Eq.trans h2 ?_
        have hdrop : s.list.drop j = s.list.dropLast.drop j ++ [evicted] := by
          conv_lhs => rw [← hsplit]
          rw [List.drop_append_of_le_length hjlen]
        rw [hdrop]
        simp
  | case3 s effs hle =>
      rw [enforceMaxSizeGo_eq_stop bound s effs hle]
      exact ⟨s.list.length, le_refl _, by simp, by simp⟩

/-- The eviction loop preserves well-formedness and drives the map size
within the bound. -/
theorem enforceMaxSizeGo_WF (bound : Nat) (s : CacheState K V)
    (effs : List (Eff K V)) (hwf : WF s) :
    WF (TtlCache.enforceMaxSizeGo bound s effs).1 ∧
      (TtlCache.enforceMaxSizeGo bound s effs).1.map.length ≤ bound := by
  induction s, effs using @TtlCache.enforceMaxSizeGo.induct K V _ bound with
  | case1 s effs hgt hnone =>
      exfalso
      have hnil : s.list = [] := by
        cases hl : s.list with
        | nil => rfl
        | cons a rest => rw [hl] at hnone; simp [List.getLast?_concat] at hnone
      have hlen := map_length_le_list_length hwf
      rw [hnil] at hlen
      simp only [List.length_nil] at hlen
      omega
  | case2 s effs hgt evicted hsome ih =>
      rw [enforceMaxSizeGo_eq_step bound s effs hgt hsome]
      refine ih ?_
      obtain ⟨m, l, d, ms, st⟩ := s
      exact WF_evictTail hwf hsome
  | case3 s effs hle =>
      rw [enforceMaxSizeGo_eq_stop bound s effs hle]
      refine ⟨hwf, ?_⟩
      show s.map.length ≤ bound
      omega

theorem alistSet_length_not_mem {α : Type} {m : List (K × α)} {k : K}
    (h : k ∉ alistKeys m) (a : α) :
    (alistSet m k a).length = m.length + 1 := by
  have h1 : (alistKeys (alistSet m k a)).length = (alistKeys m ++ [k]).length :=
    congrArg List.length (alistKeys_alistSet_not_mem a h)
  simpa [alistKeys] using h1

end EnforceLemmas

/-! ### Claim C6: LRU eviction -/

/-- **C6**: with a capacity bound configured, an insertion that grows the
store repeatedly removes the least-recently-used (tail) entry, each with
reason `evicted`, until the store is within the bound (the surviving list is
a prefix of the pre-insertion recency order); `get` on a fresh entry and
`set` on an existing key promote that entry to most-recent, so they change
which entry is evicted next, while `peek` leaves the state (hence the
eviction order) untouched; with no bound configured eviction never runs. -/
theorem claimC6_lru_eviction {K V : Type} [DecidableEq K] :
    (∀ (s : CacheState K V) (now : Int) (key : K) (value : V) (t : Option Int)
       (bound : Nat), WF s → s.maxSize = some bound →
       alistLookup s.map key = none →
       (TtlCache.set s now key value t).1.map.length ≤ bound ∧
       WF (TtlCache.set s now key value t).1 ∧
       (∃ e j, e.key = key ∧ e.value = value ∧
         (TtlCache.set s now key value t).1.list = (e :: s.list).take j ∧
         (TtlCache.set s now key value t).2 =
           (((e :: s.list).drop j).reverse.flatMap
             (fun e1 => [Eff.onEvict e1.key e1.value EvictReason.evicted,
                         Eff.emitEvict e1.key e1.value])) ++
             [Eff.emitSet key value])) ∧
    (∀ (s : CacheState K V) (now : Int) (key : K) (e : CacheEntry K V),
       WF s → alistLookup s.map key = some e → e.isFresh now = true →
       (TtlCache.get s now key).2.1.list.head? = some e) ∧
    (∀ (s : CacheState K V) (now : Int) (key : K) (value : V) (t : Option Int)
       (e : CacheEntry K V), WF s → alistLookup s.map key = some e →
       ((TtlCache.set s now key value t).1.list.head?.map CacheEntry.key)
         = some key) ∧
    (∀ (s : CacheState K V) (now : Int) (key : K) (e : CacheEntry K V),
       alistLookup s.map key = some e → e.isExpired now = false →
       (TtlCache.peek s now key).2.1 = s) ∧
    (∀ (s : CacheState K V) (now : Int) (key : K) (value : V) (t : Option Int),
       s.maxSize = none → alistLookup s.map key = none →
       ∃ e, (TtlCache.set s now key value t).1.list = e :: s.list ∧
         (TtlCache.set s now key value t).1.map.length = s.map.length + 1 ∧
         (TtlCache.set s now key value t).2 = [Eff.emitSet key value]) := by
  refine ⟨?_, ?_, ?_, ?_, ?_⟩
  · intro s now key value t bound hwf hb hnone
    have hset : TtlCache.set s now key value t =
        ((TtlCache.enforceMaxSizeGo bound
            { s with
                map := alistSet s.map key
                  ⟨key, value, now + t.getD s.defaultTtlMs,
                   now + t.getD s.defaultTtlMs⟩
                list := ⟨key, value, now + t.getD s.defaultTtlMs,
                   now + t.getD s.defaultTtlMs⟩ :: s.list } []).1,
         (TtlCache.enforceMaxSizeGo bound
            { s with
                map := alistSet s.map key
                  ⟨key, value, now + t.getD s.defaultTtlMs,
                   now + t.getD s.defaultTtlMs⟩
                list := ⟨key, value, now + t.getD s.defaultTtlMs,
                   now + t.getD s.defaultTtlMs⟩ :: s.list } []).2
           ++ [Eff.emitSet key value]) := by
      simp only [TtlCache.set, hnone, TtlCache.enforceMaxSize, hb,
        DoublyLinkedList.addToFront]
    have hwf1 : WF ({ s with
        map := alistSet s.map key
          ⟨key, value, now + t.getD s.defaultTtlMs,
           now + t.getD s.defaultTtlMs⟩
        list := ⟨key, value, now + t.getD s.defaultTtlMs,
           now + t.getD s.defaultTtlMs⟩ :: s.list } : CacheState K V) :=
      WF_insertNew hwf rfl hnone
    have hWFgo := enforceMaxSizeGo_WF bound _ [] hwf1
    have hshape := enforceMaxSizeGo_shape bound ({ s with
        map := alistSet s.map key
          ⟨key, value, now + t.getD s.defaultTtlMs,
           now + t.getD s.defaultTtlMs⟩
        list := ⟨key, value, now + t.getD s.defaultTtlMs,
           now + t.getD s.defaultTtlMs⟩ :: s.list } : CacheState K V) []
    refine ⟨?_, ?_, ?_⟩
    · rw [hset]
      exact hWFgo.2
    · rw [hset]
      exact hWFgo.1
    · obtain ⟨j, hj, h1, h2⟩ := hshape
      refine ⟨⟨key, value, now + t.getD s.defaultTtlMs,
        now + t.getD s.defaultTtlMs⟩, j, rfl, rfl, ?_, ?_⟩
      · rw [hset]
        exact h1
      · rw [hset]
        rw [h2]
        simp
  · intro s now key e hwf he hf
    have hlist : e ∈ s.list := (hwf.2.2.1 _ (alistLookup_mem he)).2
    have hg : (TtlCache.get s now key).2.1.list = moveToFront s.list e := by
      simp [TtlCache.get, he, hf]
    rw [hg]
    exact head_moveToFront hwf.2.1 hlist
  · intro s now key value t e hwf he
    have hmem := alistLookup_mem he
    have hkey : e.key = key := (hwf.2.2.1 _ hmem).1
    have hlist : e ∈ s.list := (hwf.2.2.1 _ hmem).2
    have hs : (TtlCache.set s now key value t).1.list =
        moveToFront (updateEntry s.list key
          ⟨e.key, value, now + t.getD s.defaultTtlMs,
           now + t.getD s.defaultTtlMs⟩)
          ⟨e.key, value, now + t.getD s.defaultTtlMs,
           now + t.getD s.defaultTtlMs⟩ := by
      simp [TtlCache.set, he]
    rw [hs]
    have hnd2 : ((updateEntry s.list key
        ⟨e.key, value, now + t.getD s.defaultTtlMs,
         now + t.getD s.defaultTtlMs⟩).map CacheEntry.key).Nodup := by
      rw [map_key_updateEntry (show (⟨e.key, value,
        now + t.getD s.defaultTtlMs, now + t.getD s.defaultTtlMs⟩ :
          CacheEntry K V).key = key from hkey)]
      exact hwf.2.1
    have hin : (⟨e.key, value, now + t.getD s.defaultTtlMs,
        now + t.getD s.defaultTtlMs⟩ : CacheEntry K V) ∈
        updateEntry s.list key
          ⟨e.key, value, now + t.getD s.defaultTtlMs,
           now + t.getD s.defaultTtlMs⟩ :=
      mem_updateEntry_self hlist hkey
    rw [head_moveToFront hnd2 hin]
    simpa using hkey
  · intro s now key e he hne
    simp [TtlCache.peek, he, hne]
  · intro s now key value t hmax hnone
    refine ⟨⟨key, value, now + t.getD s.defaultTtlMs,
      now + t.getD s.defaultTtlMs⟩, ?_, ?_, ?_⟩
    · simp [TtlCache.set, hnone, TtlCache.enforceMaxSize, hmax,
        DoublyLinkedList.addToFront]
    · have hlen := alistSet_length_not_mem (alistLookup_eq_none.mp hnone)
        (⟨key, value, now + t.getD s.defaultTtlMs,
          now + t.getD s.defaultTtlMs⟩ : CacheEntry K V)
      simp [TtlCache.set, hnone, TtlCache.enforceMaxSize, hmax,
        DoublyLinkedList.addToFront, hlen]
    · simp [TtlCache.set, hnone, TtlCache.enforceMaxSize, hmax,
        DoublyLinkedList.addToFront]

/-! ### More well-formedness preservation lemmas (towards claim C8) -/

section WFOps

variable {K V : Type} [DecidableEq K]

theorem WF_removeFields {m : List (K × CacheEntry K V)}
    {l : List (CacheEntry K V)} {d : Int} {ms : Option Nat} {st st2 : Stats}
    (hwf : WF (⟨m, l, d, ms, st⟩ : CacheState K V)) (k : K) :
    WF (⟨alistDelete m k, removeKey l k, d, ms, st2⟩ : CacheState K V) := by
  obtain ⟨hnd, hlnd, hmap, hlist⟩ := hwf
  refine ⟨nodup_alistDelete hnd k, ?_, ?_, ?_⟩
  · rw [map_key_removeKey]
    exact hlnd.erase k
  · intro p hp
    have hpm := mem_alistDelete_of_mem hp
    have hpk := mem_alistDelete_ne_key hnd hp
    obtain ⟨hk1, hin⟩ := hmap p hpm
    exact ⟨hk1, mem_removeKey_of_ne hin (hk1 ▸ hpk)⟩
  · intro e1 he1
    have hel : e1 ∈ l := mem_removeKey_of_mem he1
    have hne : e1.key ≠ k := key_not_mem_removeKey hlnd he1
    rw [alistLookup_alistDelete_ne m (fun hx => hne hx.symm)]
    exact hlist e1 hel

theorem WF_removeEntryState {s : CacheState K V} (hwf : WF s)
    (e : CacheEntry K V) (r : EvictReason) :
    WF (TtlCache.removeEntry s e r).1 := by
  obtain ⟨m, l, d, ms, st⟩ := s
  exact WF_removeFields hwf e.key

theorem WF_moveToFrontFields {m : List (K × CacheEntry K V)}
    {l : List (CacheEntry K V)} {d : Int} {ms : Option Nat} {st st2 : Stats}
    (hwf : WF (⟨m, l, d, ms, st⟩ : CacheState K V)) {e : CacheEntry K V}
    (he : e ∈ l) :
    WF (⟨m, moveToFront l e, d, ms, st2⟩ : CacheState K V) := by
  obtain ⟨hnd, hlnd, hmap, hlist⟩ := hwf
  obtain ⟨hmv_nd, hmv_mem⟩ := map_key_moveToFront_nodup hlnd he
  refine ⟨hnd, hmv_nd, ?_, ?_⟩
  · intro p hp
    obtain ⟨hk1, hin⟩ := hmap p hp
    refine ⟨hk1, ?_⟩
    unfold moveToFront
    by_cases hh : l.head?.map CacheEntry.key = some e.key
    · rw [if_pos hh]
      exact hin
    · rw [if_neg hh]
      by_cases hpe : p.2 = e
      · exact hpe ▸ List.mem_cons_self _ _
      · refine List.mem_cons_of_mem _ (mem_removeKey_of_ne hin ?_)
        intro hke
        exact hpe (List.inj_on_of_nodup_map hlnd hin he hke)
  · intro e1 he1
    rcases hmv_mem e1 he1 with h1 | ⟨h1, h2⟩
    · subst h1
      exact hlist _ he
    · exact hlist e1 h1

theorem WF_enforceMaxSize {s : CacheState K V} (hwf : WF s) :
    WF (TtlCache.enforceMaxSize s).1 := by
  unfold TtlCache.enforceMaxSize
  cases hms : s.maxSize with
  | none => exact hwf
  | some bound => exact (enforceMaxSizeGo_WF bound s [] hwf).1

theorem WF_set (s : CacheState K V) (now : Int) (key : K) (value : V)
    (t : Option Int) (hwf : WF s) : WF (TtlCache.set s now key value t).1 := by
  unfold TtlCache.set
  cases hl : alistLookup s.map key with
  | some old =>
      have hk : old.key = key := (hwf.2.2.1 _ (alistLookup_mem hl)).1
      obtain ⟨m, l, d, ms, st⟩ := s
      exact WF_updateMove hwf hl hk
  | none =>
      have h1 : WF ({ s with
          map := alistSet s.map key
            ⟨key, value, now + t.getD s.defaultTtlMs,
             now + t.getD s.defaultTtlMs⟩
          list := ⟨key, value, now + t.getD s.defaultTtlMs,
             now + t.getD s.defaultTtlMs⟩ :: s.list } : CacheState K V) :=
        WF_insertNew hwf rfl hl
      exact WF_enforceMaxSize h1

theorem WF_setWithSwr (s : CacheState K V) (now : Int) (key : K) (value : V)
    (t w : Option Int) (hwf : WF s) :
    WF (TtlCache.setWithSwr s now key value t w).1 := by
  unfold TtlCache.setWithSwr
  cases hl : alistLookup s.map key with
  | some old =>
      have hk : old.key = key := (hwf.2.2.1 _ (alistLookup_mem hl)).1
      obtain ⟨m, l, d, ms, st⟩ := s
      exact WF_updateMove hwf hl hk
  | none =>
      have h1 : WF ({ s with
          map := alistSet s.map key
            ⟨key, value, now + t.getD s.defaultTtlMs,
             now + t.getD s.defaultTtlMs + w.getD 0⟩
          list := ⟨key, value, now + t.getD s.defaultTtlMs,
             now + t.getD s.defaultTtlMs + w.getD 0⟩ :: s.list } :
            CacheState K V) :=
        WF_insertNew hwf rfl hl
      exact WF_enforceMaxSize h1

theorem WF_get (s : CacheState K V) (now : Int) (key : K) (hwf : WF s) :
    WF (TtlCache.get s now key).2.1 := by
  unfold TtlCache.get
  cases hl : alistLookup s.map key with
  | none => exact hwf
  | some entry =>
      by_cases hf : entry.isFresh now = true
      · simp only [hf, if_pos]
        have hin : entry ∈ s.list := (hwf.2.2.1 _ (alistLookup_mem hl)).2
        obtain ⟨m, l, d, ms, st⟩ := s
        exact WF_moveToFrontFields hwf hin
      · simp only [hf, if_neg]
        by_cases hex : entry.isExpired now = true
        · simp only [hex, if_pos]
          obtain ⟨m, l, d, ms, st⟩ := s
          exact WF_removeFields hwf entry.key
        · simp only [hex, if_neg]
          exact hwf

theorem WF_peek (s : CacheState K V) (now : Int) (key : K) (hwf : WF s) :
    WF (TtlCache.peek s now key).2.1 := by
  unfold TtlCache.peek
  cases hl : alistLookup s.map key with
  | none => exact hwf
  | some entry =>
      by_cases hex : entry.isExpired now = true
      · simp only [hex, if_pos]
        obtain ⟨m, l, d, ms, st⟩ := s
        exact WF_removeFields hwf entry.key
      · simp only [hex, if_neg]
        exact hwf

theorem WF_hasKey (s : CacheState K V) (now : Int) (key : K) (hwf : WF s) :
    WF (TtlCache.hasKey s now key).2.1 := by
  unfold TtlCache.hasKey
  cases hl : alistLookup s.map key with
  | none => exact hwf
  | some entry =>
      by_cases hex : entry.isExpired now = true
      · simp only [hex, if_pos]
        obtain ⟨m, l, d, ms, st⟩ := s
        exact WF_removeFields hwf entry.key
      · simp only [hex, if_neg]
        exact hwf

theorem WF_deleteKey (s : CacheState K V) (key : K) (hwf : WF s) :
    WF (TtlCache.deleteKey s key).2.1 := by
  unfold TtlCache.deleteKey
  cases hl : alistLookup s.map key with
  | none => exact hwf
  | some entry =>
      obtain ⟨m, l, d, ms, st⟩ := s
      exact WF_removeFields hwf entry.key

theorem WF_clear (s : CacheState K V) : WF (TtlCache.clear s).1 := by
  refine ⟨?_, ?_, ?_, ?_⟩ <;> simp [TtlCache.clear, alistKeys]

theorem WF_sweepGo (now : Int) (items : List (K × CacheEntry K V))
    (s : CacheState K V) (effs : List (Eff K V)) (hwf : WF s) :
    WF (TtlCache.sweepGo now items s effs).1 := by
  induction items generalizing s effs with
  | nil => exact hwf
  | cons p rest ih =>
      obtain ⟨k1, e1⟩ := p
      unfold TtlCache.sweepGo
      by_cases hex : e1.isExpired now = true
      · simp only [hex, if_pos]
        exact ih _ _ (WF_removeEntryState hwf e1 EvictReason.expired)
      · simp only [hex, if_neg]
        exact ih _ _ hwf

theorem WF_sweep (s : CacheState K V) (now : Int) (hwf : WF s) :
    WF (TtlCache.sweep s now).1 :=
  WF_sweepGo now s.map s [] hwf

theorem WF_iterate_fold (items : List (K × CacheEntry K V))
    (acc : CacheState K V × List (Eff K V)) (hwf : WF acc.1) :
    WF (items.foldl
      (fun acc1 p =>
        let q := TtlCache.removeEntry acc1.1 p.2 EvictReason.expired
        (q.1, acc1.2 ++ q.2)) acc).1 := by
  induction items generalizing acc with
  | nil => exact hwf
  | cons p rest ih =>
      exact ih _ (WF_removeEntryState hwf p.2 EvictReason.expired)

theorem WF_iterate (s : CacheState K V) (now : Int) (hwf : WF s) :
    WF (TtlCache.iterate s now).2.1 :=
  WF_iterate_fold (s.map.filter fun p => p.2.isExpired now) (s, []) hwf

theorem listModify_get?_self {α : Type} {l : List α} {i : Nat} {a : α}
    (h : l.get? i = some a) (f : α → α) :
    (listModify l i f).get? i = some (f a) := by
  induction l generalizing i with
  | nil => simp [List.get?] at h
  | cons x rest ih =>
      cases i with
      | zero =>
          simp only [List.get?] at h
          injection h with h1
          subst h1
          rfl
      | succ n =>
          simp only [List.get?] at h ⊢
          exact ih h

theorem listModify_get?_ne {α : Type} (l : List α) {i j : Nat}
    (hne : i ≠ j) (f : α → α) : (listModify l i f).get? j = l.get? j := by
  induction l generalizing i j with
  | nil => cases i <;> rfl
  | cons x rest ih =>
      cases i with
      | zero =>
          cases j with
          | zero => exact absurd rfl hne
          | succ m => rfl
      | succ n =>
          cases j with
          | zero => rfl
          | succ m =>
              simp only [listModify, List.get?]
              exact ih (fun hx => hne (congrArg Nat.succ hx))

theorem WF_hit_branch {c : CacheState K V} (hwf : WF c) {k : K}
    {entry : CacheEntry K V} (hl : alistLookup c.map k = some entry)
    {st2 : Stats} :
    WF (⟨c.map, moveToFront c.list entry, c.defaultTtlMs, c.maxSize, st2⟩ :
      CacheState K V) := by
  have hin : entry ∈ c.list := (hwf.2.2.1 _ (alistLookup_mem hl)).2
  obtain ⟨m, l, d, ms, st⟩ := c
  exact WF_moveToFrontFields hwf hin

theorem WF_startCall {sys sys' : Sys K V} (i : Nat) (hwf : WF sys.cache)
    (h : startCall sys i = some sys') : WF sys'.cache := by
  unfold startCall startMiss startNewLoad procSet at h
  dsimp only at h
  repeat' split at h
  all_goals try exact Option.noConfusion h
  all_goals injection h with h1
  all_goals subst h1
  all_goals first
    | exact hwf
    | exact WF_removeEntryState hwf _ EvictReason.expired
    | exact WF_hit_branch hwf (by assumption)

theorem WF_settleLoad {sys sys' : Sys K V} (pid : Nat)
    (outcome : LoadOutcome V) (hwf : WF sys.cache)
    (h : settleLoad sys pid outcome = some sys') : WF sys'.cache := by
  unfold settleLoad at h
  dsimp only at h
  repeat' split at h
  all_goals try exact Option.noConfusion h
  all_goals injection h with h1
  all_goals subst h1
  all_goals first
    | exact hwf
    | exact WF_setWithSwr sys.cache sys.now _ _ _ _ hwf

theorem WF_completeCall {sys sys' : Sys K V} (i : Nat) (hwf : WF sys.cache)
    (h : completeCall sys i = some sys') : WF sys'.cache := by
  unfold completeCall procSet at h
  dsimp only at h
  repeat' split at h
  all_goals try exact Option.noConfusion h
  all_goals injection h with h1
  all_goals subst h1
  all_goals exact hwf

theorem WF_abortCall {sys sys' : Sys K V} (i : Nat) (hwf : WF sys.cache)
    (h : abortCall sys i = some sys') : WF sys'.cache := by
  unfold abortCall procSet at h
  dsimp only at h
  repeat' split at h
  all_goals try exact Option.noConfusion h
  all_goals injection h with h1
  all_goals subst h1
  all_goals exact hwf

theorem WF_step {sys sys' : Sys K V} (l : Label K V) (hwf : WF sys.cache)
    (h : step sys l = some sys') : WF sys'.cache := by
  cases l with
  | start i => exact WF_startCall i hwf h
  | settle pid outcome => exact WF_settleLoad pid outcome hwf h
  | complete i => exact WF_completeCall i hwf h
  | abortSig i => exact WF_abortCall i hwf h
  | setOp k v t =>
      injection h with h1
      subst h1
      exact WF_set _ sys.now k v t hwf
  | getOp k =>
      injection h with h1
      subst h1
      exact WF_get _ sys.now k hwf
  | peekOp k =>
      injection h with h1
      subst h1
      exact WF_peek _ sys.now k hwf
  | deleteOp k =>
      injection h with h1
      subst h1
      exact WF_deleteKey _ k hwf
  | clearOp =>
      injection h with h1
      subst h1
      exact WF_clear _
  | pruneOp =>
      injection h with h1
      subst h1
      exact WF_sweep _ sys.now hwf

end WFOps

/-! ### Claim C8: map/eviction-list correspondence after every operation -/

/-- **C8**: well-formedness — every key of the primary map has exactly one
entry, that entry appears in the eviction list exactly once, and every
entry of the eviction list is found in the map under its own key — is
preserved by every public operation: `set`, `get`, `peek`, `has`, `delete`,
`clear`, `prune`/`sweep`, iteration, and every step of the asynchronous
`getOrSet` protocol (caller start, loader settlement, caller resumption,
cancellation, and the synchronous labels). -/
theorem claimC8_map_list_correspondence {K V : Type} [DecidableEq K] :
    (∀ (s : CacheState K V) (now : Int) (key : K) (value : V) (t : Option Int),
       WF s → WF (TtlCache.set s now key value t).1) ∧
    (∀ (s : CacheState K V) (now : Int) (key : K),
       WF s → WF (TtlCache.get s now key).2.1) ∧
    (∀ (s : CacheState K V) (now : Int) (key : K),
       WF s → WF (TtlCache.peek s now key).2.1) ∧
    (∀ (s : CacheState K V) (now : Int) (key : K),
       WF s → WF (TtlCache.hasKey s now key).2.1) ∧
    (∀ (s : CacheState K V) (key : K),
       WF s → WF (TtlCache.deleteKey s key).2.1) ∧
    (∀ s : CacheState K V, WF (TtlCache.clear s).1) ∧
    (∀ (s : CacheState K V) (now : Int),
       WF s → WF (TtlCache.sweep s now).1) ∧
    (∀ (s : CacheState K V) (now : Int),
       WF s → WF (TtlCache.iterate s now).2.1) ∧
    (∀ (s : CacheState K V) (now : Int) (key : K) (value : V) (t w : Option Int),
       WF s → WF (TtlCache.setWithSwr s now key value t w).1) ∧
    (∀ (sys sys' : Sys K V) (l : Label K V),
       WF sys.cache → step sys l = some sys' → WF sys'.cache) :=
  ⟨fun s now key value t hwf => WF_set s now key value t hwf,
   fun s now key hwf => WF_get s now key hwf,
   fun s now key hwf => WF_peek s now key hwf,
   fun s now key hwf => WF_hasKey s now key hwf,
   fun s key hwf => WF_deleteKey s key hwf,
   fun s => WF_clear s,
   fun s now hwf => WF_sweep s now hwf,
   fun s now hwf => WF_iterate s now hwf,
   fun s now key value t w hwf => WF_setWithSwr s now key value t w hwf,
   fun sys sys' l hwf h => WF_step l hwf h⟩

/-- Witness for C8: the bounded two-entry store is well-formed, and stays
well-formed after an insertion that triggers an eviction. -/
theorem claimC8_witness :
    WF boundedStateC ∧ WF (TtlCache.set boundedStateC 0 3 33 none).1 :=
  ⟨by decide,
   (@claimC8_map_list_correspondence Nat Nat _).1 boundedStateC 0 3 33 none
     (by decide)⟩

/-- Witness for C6: inserting key 3 into the bounded two-entry store evicts
the LRU entry (key 1) with reason `evicted`. -/
theorem claimC6_witness :
    (WF boundedStateC ∧ boundedStateC.maxSize = some 2 ∧
      alistLookup boundedStateC.map 3 = none) ∧
    (TtlCache.set boundedStateC 0 3 33 none).1.map.length ≤ 2 :=
  ⟨⟨by decide, by decide, by decide⟩,
   ((@claimC6_lru_eviction Nat Nat _).1 boundedStateC 0 3 33 none 2
     (by decide) (by decide) (by decide)).1⟩

/-! ### Claim C4: stale hit serves stale and refreshes in the background -/

/-- **C4**: on a stale hit, `getOrSet` promotes the entry to most-recent,
records a served-stale, and returns the stale value immediately in its
synchronous prefix (the caller never reaches a suspension point); it
registers a detached background refresh unless one is already inflight for
the key (single-flight); on refresh success the entry is rewritten with a
new fresh/stale window; on refresh failure the error is discarded — the
cache, the log and every caller are untouched, only the inflight
registration is cleared. -/
theorem claimC4_swr_stale_hit {K V : Type} [DecidableEq K] :
    (∀ (sys : Sys K V) (i : Nat) (k : K) (opts : GetOrSetOpts)
       (e : CacheEntry K V),
       WF sys.cache →
       sys.procs.get? i = some ⟨k, opts, ProcState.ready⟩ →
       opts.hasSignal = false →
       alistLookup sys.cache.map k = some e →
       e.isStale sys.now = true →
       alistLookup sys.inflight k = none →
       ∃ sys1, startCall sys i = some sys1 ∧
         sys1.procs.get? i =
           some ⟨k, opts, ProcState.done (CallResult.ok e.value)⟩ ∧
         sys1.cache.map = sys.cache.map ∧
         sys1.cache.list.head? = some e ∧
         sys1.cache.stats.stale = sys.cache.stats.stale + 1 ∧
         alistLookup sys1.inflight k = some sys.nextPid ∧
         sys1.ops = sys.ops ++ [⟨sys.nextPid, k, opts.ttlMs, opts.swrMs, true⟩] ∧
         sys1.loaderCalls = sys.loaderCalls + 1 ∧
         sys1.log = sys.log ++ [Eff.emitStale k e.value]) ∧
    (∀ (sys : Sys K V) (i : Nat) (k : K) (opts : GetOrSetOpts)
       (e : CacheEntry K V) (pid0 : Nat),
       sys.procs.get? i = some ⟨k, opts, ProcState.ready⟩ →
       opts.hasSignal = false →
       alistLookup sys.cache.map k = some e →
       e.isStale sys.now = true →
       alistLookup sys.inflight k = some pid0 →
       ∃ sys2, startCall sys i = some sys2 ∧
         sys2.procs.get? i =
           some ⟨k, opts, ProcState.done (CallResult.ok e.value)⟩ ∧
         sys2.loaderCalls = sys.loaderCalls ∧
         sys2.ops = sys.ops ∧
         sys2.inflight = sys.inflight) ∧
    (∀ (sys : Sys K V) (pid : Nat) (op : LoadOp K) (v : V)
       (e2 : CacheEntry K V),
       sys.ops.find? (fun o => o.pid == pid) = some op →
       op.background = true →
       alistLookup sys.cache.map op.key = some e2 →
       (alistKeys sys.inflight).Nodup →
       ∃ sys3, settleLoad sys pid (LoadOutcome.ok v) = some sys3 ∧
         alistLookup sys3.cache.map op.key = some
           ⟨e2.key, v, sys.now + op.ttlMs.getD sys.cache.defaultTtlMs,
            sys.now + op.ttlMs.getD sys.cache.defaultTtlMs + op.swrMs.getD 0⟩ ∧
         alistLookup sys3.inflight op.key = none ∧
         sys3.procs = sys.procs) ∧
    (∀ (sys : Sys K V) (pid : Nat) (op : LoadOp K) (ec : Nat),
       sys.ops.find? (fun o => o.pid == pid) = some op →
       op.background = true →
       (alistKeys sys.inflight).Nodup →
       ∃ sys4, settleLoad sys pid (LoadOutcome.err ec) = some sys4 ∧
         sys4.cache = sys.cache ∧
         sys4.procs = sys.procs ∧
         sys4.log = sys.log ∧
         alistLookup sys4.inflight op.key = none) := by
  refine ⟨?_, ?_, ?_, ?_⟩
  · intro sys i k opts e hwf hp hsig hl hstale hinf
    have hfr : e.isFresh sys.now = false := isFresh_false_of_isStale hstale
    have hin : e ∈ sys.cache.list := (hwf.2.2.1 _ (alistLookup_mem hl)).2
    have hrun : startCall sys i = some
        { cache := { sys.cache with
            list := moveToFront sys.cache.list e
            stats := { sys.cache.stats with
              stale := sys.cache.stats.stale + 1 } }
          inflight := alistSet sys.inflight k sys.nextPid
          ops := sys.ops ++ [⟨sys.nextPid, k, opts.ttlMs, opts.swrMs, true⟩]
          settled := sys.settled
          procs := listModify sys.procs i fun p =>
            { p with state := ProcState.done (CallResult.ok e.value) }
          loaderCalls := sys.loaderCalls + 1
          nextPid := sys.nextPid + 1
          now := sys.now
          log := sys.log ++ [Eff.emitStale k e.value] } := by
      simp [startCall, procSet, ← List.get?_eq_getElem?, hp, hsig, hl, hfr, hstale, hinf]
    refine ⟨_, hrun, ?_, rfl, ?_, rfl, ?_, rfl, rfl, rfl⟩
    · show (listModify sys.procs i _).get? i = _
      rw [listModify_get?_self hp]
    · exact head_moveToFront hwf.2.1 hin
    · exact alistLookup_alistSet_self sys.inflight k sys.nextPid
  · intro sys i k opts e pid0 hp hsig hl hstale hinf
    have hfr : e.isFresh sys.now = false := isFresh_false_of_isStale hstale
    have hrun : startCall sys i = some
        { cache := { sys.cache with
            list := moveToFront sys.cache.list e
            stats := { sys.cache.stats with
              stale := sys.cache.stats.stale + 1 } }
          inflight := sys.inflight
          ops := sys.ops
          settled := sys.settled
          procs := listModify sys.procs i fun p =>
            { p with state := ProcState.done (CallResult.ok e.value) }
          loaderCalls := sys.loaderCalls
          nextPid := sys.nextPid
          now := sys.now
          log := sys.log ++ [Eff.emitStale k e.value] } := by
      simp [startCall, procSet, ← List.get?_eq_getElem?, hp, hsig, hl, hfr, hstale, hinf]
    refine ⟨_, hrun, ?_, rfl, rfl, rfl⟩
    show (listModify sys.procs i _).get? i = _
    rw [listModify_get?_self hp]
  · intro sys pid op v e2 hfind hbg he2
    intro hnd
    have hrun : settleLoad sys pid (LoadOutcome.ok v) = some
        { cache := { sys.cache with
            map := alistSet sys.cache.map op.key
              ⟨e2.key, v, sys.now + op.ttlMs.getD sys.cache.defaultTtlMs,
               sys.now + op.ttlMs.getD sys.cache.defaultTtlMs + op.swrMs.getD 0⟩
            list := moveToFront (updateEntry sys.cache.list op.key
              ⟨e2.key, v, sys.now + op.ttlMs.getD sys.cache.defaultTtlMs,
               sys.now + op.ttlMs.getD sys.cache.defaultTtlMs + op.swrMs.getD 0⟩)
              ⟨e2.key, v, sys.now + op.ttlMs.getD sys.cache.defaultTtlMs,
               sys.now + op.ttlMs.getD sys.cache.defaultTtlMs + op.swrMs.getD 0⟩
            stats := { sys.cache.stats with
              loads := sys.cache.stats.loads + 1 } }
          inflight := alistDelete sys.inflight op.key
          ops := sys.ops.filter (fun o => o.pid != pid)
          settled := sys.settled ++ [(pid, LoadOutcome.ok v)]
          procs := sys.procs
          loaderCalls := sys.loaderCalls
          nextPid := sys.nextPid
          now := sys.now
          log := sys.log ++ [Eff.emitSet op.key v] ++ [Eff.emitLoad op.key v] } := by
      simp [settleLoad, hfind, hbg, TtlCache.setWithSwr, he2]
    refine ⟨_, hrun, ?_, ?_, rfl⟩
    · exact alistLookup_alistSet_self sys.cache.map op.key _
    · exact alistLookup_alistDelete_self hnd op.key
  · intro sys pid op ec hfind hbg hnd
    have hrun : settleLoad sys pid (LoadOutcome.err ec) = some
        { cache := sys.cache
          inflight := alistDelete sys.inflight op.key
          ops := sys.ops.filter (fun o => o.pid != pid)
          settled := sys.settled ++ [(pid, LoadOutcome.err ec)]
          procs := sys.procs
          loaderCalls := sys.loaderCalls
          nextPid := sys.nextPid
          now := sys.now
          log := sys.log } := by
      simp [settleLoad, hfind, hbg]
    refine ⟨_, hrun, rfl, rfl, rfl, ?_⟩
    exact alistLookup_alistDelete_self hnd op.key

/-- Witness for C4: a stale hit on the concrete system returns the stale
value 5 at once and invokes one background refresh. -/
theorem claimC4_witness :
    (WF staleSysC.cache ∧ staleEntryC.isStale staleSysC.now = true ∧
      alistLookup staleSysC.inflight 1 = none) ∧
    (∃ sys1, startCall staleSysC 0 = some sys1 ∧
      sys1.procs.get? 0 =
        some ⟨1, swrOptsC, ProcState.done (CallResult.ok 5)⟩ ∧
      sys1.loaderCalls = staleSysC.loaderCalls + 1) := by
  refine ⟨⟨by decide, by decide, by decide⟩, ?_⟩
  obtain ⟨sys1, h1, h2, h3, h4, h5, h6, h7, h8, h9⟩ :=
    (@claimC4_swr_stale_hit Nat Nat _).1 staleSysC 0 1 swrOptsC staleEntryC
      (by decide) (by decide) (by decide) (by decide) (by decide) (by decide)
  exact ⟨sys1, h1, h2, h8⟩

/-! ### Claim C9: cancellation isolation -/

/-- **C9**: a cancellation token affects only the caller that supplied it.
An already-triggered token rejects in the synchronous prefix before any
work: the cache, registry, pending loads, loader-invocation count and log
are untouched and every other caller is unchanged.  A token triggered while
waiting settles only that caller's wait with a cancellation result; the
pending loader promise keeps running, and — unless that caller is the one
that registered the promise — the registry is untouched; every other caller
still completes with the loader's eventual outcome once it settles. -/
theorem claimC9_cancellation_isolation {K V : Type} [DecidableEq K] :
    (∀ (sys : Sys K V) (i : Nat) (k : K) (opts : GetOrSetOpts),
       sys.procs.get? i = some ⟨k, opts, ProcState.ready⟩ →
       opts.hasSignal = true → opts.preAborted = true →
       ∃ sys1, startCall sys i = some sys1 ∧
         sys1.cache = sys.cache ∧ sys1.inflight = sys.inflight ∧
         sys1.ops = sys.ops ∧ sys1.loaderCalls = sys.loaderCalls ∧
         sys1.log = sys.log ∧
         sys1.procs.get? i = some ⟨k, opts, ProcState.done CallResult.aborted⟩ ∧
         (∀ j, j ≠ i → sys1.procs.get? j = sys.procs.get? j)) ∧
    (∀ (sys : Sys K V) (ib : Nat) (k : K) (opts : GetOrSetOpts) (pid : Nat),
       sys.procs.get? ib = some ⟨k, opts, ProcState.waiting pid false⟩ →
       opts.hasSignal = true →
       ∃ sys1, abortCall sys ib = some sys1 ∧
         sys1.procs.get? ib =
           some ⟨k, opts, ProcState.done CallResult.aborted⟩ ∧
         (∀ j, j ≠ ib → sys1.procs.get? j = sys.procs.get? j) ∧
         sys1.ops = sys.ops ∧ sys1.inflight = sys.inflight ∧
         sys1.settled = sys.settled ∧ sys1.cache = sys.cache) ∧
    (∀ (sys : Sys K V) (ia : Nat) (k : K) (opts : GetOrSetOpts) (pid : Nat),
       sys.procs.get? ia = some ⟨k, opts, ProcState.waiting pid true⟩ →
       opts.hasSignal = true →
       ∃ sys1, abortCall sys ia = some sys1 ∧
         sys1.procs.get? ia =
           some ⟨k, opts, ProcState.done CallResult.aborted⟩ ∧
         (∀ j, j ≠ ia → sys1.procs.get? j = sys.procs.get? j) ∧
         sys1.ops = sys.ops ∧ sys1.settled = sys.settled ∧
         sys1.cache = sys.cache) ∧
    (∀ (sys : Sys K V) (j : Nat) (k : K) (opts : GetOrSetOpts) (pid : Nat)
       (c : Bool) (outcome : LoadOutcome V),
       sys.procs.get? j = some ⟨k, opts, ProcState.waiting pid c⟩ →
       alistLookup sys.settled pid = some outcome →
       ∃ sys2, completeCall sys j = some sys2 ∧
         sys2.procs.get? j =
           some ⟨k, opts, ProcState.done outcome.toResult⟩) := by
  refine ⟨?_, ?_, ?_, ?_⟩
  · intro sys i k opts hp hsig hpre
    have hrun : startCall sys i = some
        { sys with procs := listModify sys.procs i fun p =>
            { p with state := ProcState.done CallResult.aborted } } := by
      simp [startCall, procSet, ← List.get?_eq_getElem?, hp, hsig, hpre]
    refine ⟨_, hrun, rfl, rfl, rfl, rfl, rfl, ?_, ?_⟩
    · show (listModify sys.procs i _).get? i = _
      rw [listModify_get?_self hp]
    · intro j hj
      show (listModify sys.procs i _).get? j = _
      rw [listModify_get?_ne sys.procs (fun hx => hj hx.symm)]
  · intro sys ib k opts pid hp hsig
    have hrun : abortCall sys ib = some
        { sys with procs := listModify sys.procs ib fun p =>
            { p with state := ProcState.done CallResult.aborted } } := by
      simp [abortCall, procSet, ← List.get?_eq_getElem?, hp, hsig]
    refine ⟨_, hrun, ?_, ?_, rfl, rfl, rfl, rfl⟩
    · show (listModify sys.procs ib _).get? ib = _
      rw [listModify_get?_self hp]
    · intro j hj
      show (listModify sys.procs ib _).get? j = _
      rw [listModify_get?_ne sys.procs (fun hx => hj hx.symm)]
  · intro sys ia k opts pid hp hsig
    have hrun : abortCall sys ia = some
        { sys with
            procs := listModify sys.procs ia fun p =>
              { p with state := ProcState.done CallResult.aborted }
            inflight := alistDelete sys.inflight k } := by
      simp [abortCall, procSet, ← List.get?_eq_getElem?, hp, hsig]
    refine ⟨_, hrun, ?_, ?_, rfl, rfl, rfl⟩
    · show (listModify sys.procs ia _).get? ia = _
      rw [listModify_get?_self hp]
    · intro j hj
      show (listModify sys.procs ia _).get? j = _
      rw [listModify_get?_ne sys.procs (fun hx => hj hx.symm)]
  · intro sys j k opts pid c outcome hp hs
    cases c with
    | false =>
        have hrun : completeCall sys j = some
            { sys with procs := listModify sys.procs j fun p =>
                { p with state := ProcState.done outcome.toResult } } := by
          simp [completeCall, procSet, ← List.get?_eq_getElem?, hp, hs]
        refine ⟨_, hrun, ?_⟩
        show (listModify sys.procs j _).get? j = _
        rw [listModify_get?_self hp]
    | true =>
        have hrun : completeCall sys j = some
            { sys with
                procs := listModify sys.procs j fun p =>
                  { p with state := ProcState.done outcome.toResult }
                inflight := alistDelete sys.inflight k } := by
          simp [completeCall, procSet, ← List.get?_eq_getElem?, hp, hs]
        refine ⟨_, hrun, ?_⟩
        show (listModify sys.procs j _).get? j = _
        rw [listModify_get?_self hp]

/-- Witness for C9: aborting the attached caller (index 1) of the concrete
two-caller system leaves the creator, the registry and the pending load
untouched. -/
theorem claimC9_witness :
    (sysWaitC.procs.get? 1 =
      some ⟨7, optsSignal, ProcState.waiting 0 false⟩ ∧
     optsSignal.hasSignal = true) ∧
    (∃ sys1, abortCall sysWaitC 1 = some sys1 ∧
       sys1.procs.get? 1 =
         some ⟨7, optsSignal, ProcState.done CallResult.aborted⟩ ∧
       sys1.ops = sysWaitC.ops ∧ sys1.inflight = sysWaitC.inflight) := by
  refine ⟨⟨by decide, by decide⟩, ?_⟩
  obtain ⟨sys1, h1, h2, h3, h4, h5, h6, h7⟩ :=
    (@claimC9_cancellation_isolation Nat Nat _).2.1 sysWaitC 1 7 optsSignal 0
      (by decide) (by decide)
  exact ⟨sys1, h1, h2, h4, h5⟩

/-! ### Claim C10: a completed load is always written -/

theorem mem_listModify {α : Type} {l : List α} {i : Nat} {f : α → α} {b : α}
    (h : b ∈ listModify l i f) : b ∈ l ∨ ∃ a, l.get? i = some a ∧ b = f a := by
  induction l generalizing i with
  | nil => simpa [listModify] using h
  | cons x rest ih =>
      cases i with
      | zero =>
          rcases List.mem_cons.mp h with h1 | h1
          · exact Or.inr ⟨x, rfl, h1⟩
          · exact Or.inl (List.mem_cons_of_mem _ h1)
      | succ n =>
          rcases List.mem_cons.mp h with h1 | h1
          · exact Or.inl (h1 ▸ List.mem_cons_self _ _)
          · rcases ih h1 with h2 | ⟨a, ha1, ha2⟩
            · exact Or.inl (List.mem_cons_of_mem _ h2)
            · exact Or.inr ⟨a, ha1, ha2⟩

theorem listModify_length {α : Type} (l : List α) (i : Nat) (f : α → α) :
    (listModify l i f).length = l.length := by
  induction l generalizing i with
  | nil => rfl
  | cons x rest ih =>
      cases i with
      | zero => rfl
      | succ n => simp [listModify, ih]

theorem settleLoad_err_shape {K V : Type} [DecidableEq K] (sys : Sys K V)
    {pid : Nat} {op : LoadOp K} (ec : Nat)
    (hfind : sys.ops.find? (fun o => o.pid == pid) = some op)
    (hbg : op.background = false) :
    ∃ sys1, settleLoad sys pid (LoadOutcome.err ec) = some sys1 ∧
      sys1.cache = sys.cache ∧ sys1.procs = sys.procs ∧
      sys1.ops = sys.ops.filter (fun o => o.pid != pid) ∧
      sys1.settled = sys.settled ++ [(pid, LoadOutcome.err ec)] ∧
      sys1.inflight = sys.inflight ∧ sys1.log = sys.log ∧
      sys1.loaderCalls = sys.loaderCalls := by
  have hrun : settleLoad sys pid (LoadOutcome.err ec) = some
      { cache := sys.cache
        inflight := sys.inflight
        ops := sys.ops.filter (fun o => o.pid != pid)
        settled := sys.settled ++ [(pid, LoadOutcome.err ec)]
        procs := sys.procs
        loaderCalls := sys.loaderCalls
        nextPid := sys.nextPid
        now := sys.now
        log := sys.log } := by
    simp [settleLoad, hfind, hbg]
  exact ⟨_, hrun, rfl, rfl, rfl, rfl, rfl, rfl, rfl⟩

theorem run_two {K V : Type} [DecidableEq K] {sys sysd sys2 : Sys K V}
    {l1 l2 : Label K V} (h1 : step sys l1 = some sysd)
    (h2 : step sysd l2 = some sys2) : run sys [l1, l2] = some sys2 := by
  simp [run, h1, h2]

theorem settleLoad_ok_shape {K V : Type} [DecidableEq K] (sys : Sys K V)
    {pid : Nat} {op : LoadOp K} (v : V)
    (hfind : sys.ops.find? (fun o => o.pid == pid) = some op) :
    ∃ sys1, settleLoad sys pid (LoadOutcome.ok v) = some sys1 ∧
      sys1.procs = sys.procs ∧
      sys1.ops = sys.ops.filter (fun o => o.pid != pid) ∧
      sys1.settled = sys.settled ++ [(pid, LoadOutcome.ok v)] ∧
      sys1.cache.map =
        (TtlCache.setWithSwr sys.cache sys.now op.key v op.ttlMs op.swrMs).1.map ∧
      sys1.cache.list =
        (TtlCache.setWithSwr sys.cache sys.now op.key v op.ttlMs op.swrMs).1.list ∧
      sys1.loaderCalls = sys.loaderCalls := by
  cases hbg : op.background with
  | true =>
      have hrun : settleLoad sys pid (LoadOutcome.ok v) = some
          { cache :=
              { (TtlCache.setWithSwr sys.cache sys.now op.key v
                  op.ttlMs op.swrMs).1 with
                stats := { (TtlCache.setWithSwr sys.cache sys.now op.key v
                    op.ttlMs op.swrMs).1.stats with
                  loads := (TtlCache.setWithSwr sys.cache sys.now op.key v
                    op.ttlMs op.swrMs).1.stats.loads + 1 } }
            inflight := alistDelete sys.inflight op.key
            ops := sys.ops.filter (fun o => o.pid != pid)
            settled := sys.settled ++ [(pid, LoadOutcome.ok v)]
            procs := sys.procs
            loaderCalls := sys.loaderCalls
            nextPid := sys.nextPid
            now := sys.now
            log := sys.log ++ (TtlCache.setWithSwr sys.cache sys.now op.key v
              op.ttlMs op.swrMs).2 ++ [Eff.emitLoad op.key v] } := by
        simp [settleLoad, hfind, hbg]
      exact ⟨_, hrun, rfl, rfl, rfl, rfl, rfl, rfl⟩
  | false =>
      have hrun : settleLoad sys pid (LoadOutcome.ok v) = some
          { cache :=
              { (TtlCache.setWithSwr sys.cache sys.now op.key v
                  op.ttlMs op.swrMs).1 with
                stats := { (TtlCache.setWithSwr sys.cache sys.now op.key v
                    op.ttlMs op.swrMs).1.stats with
                  loads := (TtlCache.setWithSwr sys.cache sys.now op.key v
                    op.ttlMs op.swrMs).1.stats.loads + 1 } }
            inflight := sys.inflight
            ops := sys.ops.filter (fun o => o.pid != pid)
            settled := sys.settled ++ [(pid, LoadOutcome.ok v)]
            procs := sys.procs
            loaderCalls := sys.loaderCalls
            nextPid := sys.nextPid
            now := sys.now
            log := sys.log ++ (TtlCache.setWithSwr sys.cache sys.now op.key v
              op.ttlMs op.swrMs).2 ++ [Eff.emitLoad op.key v] } := by
        simp [settleLoad, hfind, hbg]
      exact ⟨_, hrun, rfl, rfl, rfl, rfl, rfl, rfl⟩

theorem setWithSwr_written {K V : Type} [DecidableEq K] (s : CacheState K V)
    (now : Int) (key : K) (value : V) (t w : Option Int) (hwf : WF s)
    (hmax : s.maxSize = none) :
    ∃ e, alistLookup (TtlCache.setWithSwr s now key value t w).1.map key
        = some e ∧
      e.value = value ∧
      (TtlCache.setWithSwr s now key value t w).1.list.head? = some e := by
  unfold TtlCache.setWithSwr
  cases hl : alistLookup s.map key with
  | some old =>
      have hk : old.key = key := (hwf.2.2.1 _ (alistLookup_mem hl)).1
      have hmem : old ∈ s.list := (hwf.2.2.1 _ (alistLookup_mem hl)).2
      refine ⟨⟨old.key, value, now + t.getD s.defaultTtlMs,
        now + t.getD s.defaultTtlMs + w.getD 0⟩, ?_, rfl, ?_⟩
      · exact alistLookup_alistSet_self _ _ _
      · apply head_moveToFront
        · rw [map_key_updateEntry (show (⟨old.key, value,
            now + t.getD s.defaultTtlMs,
            now + t.getD s.defaultTtlMs + w.getD 0⟩ :
              CacheEntry K V).key = key from hk)]
          exact hwf.2.1
        · exact mem_updateEntry_self hmem hk
  | none =>
      refine ⟨⟨key, value, now + t.getD s.defaultTtlMs,
        now + t.getD s.defaultTtlMs + w.getD 0⟩, ?_, rfl, ?_⟩
      · show alistLookup (TtlCache.enforceMaxSize _).1.map key = _
        simp only [TtlCache.enforceMaxSize, hmax]
        exact alistLookup_alistSet_self _ _ _
      · show (TtlCache.enforceMaxSize _).1.list.head? = _
        simp only [TtlCache.enforceMaxSize, hmax]
        rfl

/-- **C10**: when a loader started by `getOrSet` settles successfully, its
value is always written into the store — creating or overwriting the entry
and promoting it to most-recent, exactly like a `set` — regardless of the
current store contents; `delete` and `clear` leave the pending-promise
table, the inflight registry and the settled table untouched, so a load
that was in flight across a `delete` or `clear` still writes its value,
which thereby reappears in the cache. -/
theorem claimC10_load_survives_delete_clear {K V : Type} [DecidableEq K] :
    (∀ (sys : Sys K V) (pid : Nat) (op : LoadOp K) (v : V),
       sys.ops.find? (fun o => o.pid == pid) = some op →
       WF sys.cache → sys.cache.maxSize = none →
       ∃ sys1, settleLoad sys pid (LoadOutcome.ok v) = some sys1 ∧
         ∃ e, alistLookup sys1.cache.map op.key = some e ∧ e.value = v ∧
           sys1.cache.list.head? = some e) ∧
    (∀ (sys : Sys K V) (k : K),
       ∃ sysd, step sys (Label.deleteOp k) = some sysd ∧
         sysd.ops = sys.ops ∧ sysd.inflight = sys.inflight ∧
         sysd.settled = sys.settled ∧ sysd.procs = sys.procs) ∧
    (∀ sys : Sys K V,
       ∃ sysd, step sys Label.clearOp = some sysd ∧
         sysd.ops = sys.ops ∧ sysd.inflight = sys.inflight ∧
         sysd.settled = sys.settled ∧ sysd.procs = sys.procs ∧
         sysd.cache.map = []) ∧
    (∀ (sys : Sys K V) (pid : Nat) (op : LoadOp K) (v : V),
       sys.ops.find? (fun o => o.pid == pid) = some op →
       sys.cache.maxSize = none →
       ∃ sys1, run sys [Label.clearOp, Label.settle pid (LoadOutcome.ok v)]
           = some sys1 ∧
         ∃ e, alistLookup sys1.cache.map op.key = some e ∧ e.value = v) := by
  refine ⟨?_, ?_, ?_, ?_⟩
  · intro sys pid op v hfind hwf hmax
    obtain ⟨sys1, hrun, hprocs, hops, hsettled, hmap, hlist, hlcalls⟩ :=
      settleLoad_ok_shape sys v hfind
    obtain ⟨e, he1, he2, he3⟩ :=
      setWithSwr_written sys.cache sys.now op.key v op.ttlMs op.swrMs hwf hmax
    refine ⟨sys1, hrun, e, ?_, he2, ?_⟩
    · rw [hmap]; exact he1
    · rw [hlist]; exact he3
  · intro sys k
    exact ⟨_, rfl, rfl, rfl, rfl, rfl⟩
  · intro sys
    exact ⟨_, rfl, rfl, rfl, rfl, rfl, rfl⟩
  · intro sys pid op v hfind hmax
    have hstep : step sys Label.clearOp = some
        { sys with
            cache := { sys.cache with map := [], list := [] }
            log := sys.log ++ (TtlCache.clear sys.cache).2 } := by
      simp [step, TtlCache.clear]
    obtain ⟨sys1, hrun, hprocs, hops, hsettled, hmap, hlist, hlcalls⟩ :=
      settleLoad_ok_shape ({ sys with
            cache := { sys.cache with map := [], list := [] }
            log := sys.log ++ (TtlCache.clear sys.cache).2 } : Sys K V) v hfind
    obtain ⟨e, he1, he2, he3⟩ :=
      setWithSwr_written { sys.cache with map := [], list := [] } sys.now
        op.key v op.ttlMs op.swrMs (by exact ⟨by simp [alistKeys], by simp,
          by simp, by simp⟩) hmax
    refine ⟨sys1, run_two hstep hrun, e, ?_, he2⟩
    rw [hmap]
    exact he1

/-- Witness for C10: clearing the cache while pid 0 is in flight, then
settling the load with 42, leaves key 3 present with value 42. -/
theorem claimC10_witness :
    (sysLoadC.ops.find? (fun o => o.pid == 0)
        = some ⟨0, 3, some 10, none, false⟩ ∧
     sysLoadC.cache.maxSize = none) ∧
    (∃ sys1, run sysLoadC [Label.clearOp, Label.settle 0 (LoadOutcome.ok 42)]
        = some sys1 ∧
      ∃ e, alistLookup sys1.cache.map 3 = some e ∧ e.value = 42) := by
  refine ⟨⟨by decide, by decide⟩, ?_⟩
  obtain ⟨sys1, h1, e, h2, h3⟩ :=
    (@claimC10_load_survives_delete_clear Nat Nat _).2.2.2 sysLoadC 0
      ⟨0, 3, some 10, none, false⟩ 42 (by decide) (by decide)
  exact ⟨sys1, h1, e, h2, h3⟩

/-! ### Claim C3: inflight registry lifecycle (corrected) -/

/-- A step preserves uniqueness of the inflight registry keys (the
registry is a `Map`). -/
theorem inflightNodup_step {K V : Type} [DecidableEq K] {sys sys1 : Sys K V}
    (l : Label K V) (h : step sys l = some sys1)
    (hnd : (alistKeys sys.inflight).Nodup) :
    (alistKeys sys1.inflight).Nodup := by
  cases l with
  | start i =>
      simp only [step] at h
      unfold startCall startMiss startNewLoad procSet at h
      dsimp only at h
      repeat' split at h
      all_goals try exact Option.noConfusion h
      all_goals injection h with h1
      all_goals subst h1
      all_goals first
        | exact hnd
        | exact nodup_alistSet hnd _ _
  | settle pid o =>
      simp only [step] at h
      unfold settleLoad at h
      dsimp only at h
      repeat' split at h
      all_goals try exact Option.noConfusion h
      all_goals injection h with h1
      all_goals subst h1
      all_goals first
        | exact hnd
        | exact nodup_alistDelete hnd _
  | complete i =>
      simp only [step] at h
      unfold completeCall procSet at h
      dsimp only at h
      repeat' split at h
      all_goals try exact Option.noConfusion h
      all_goals injection h with h1
      all_goals subst h1
      all_goals first
        | exact hnd
        | exact nodup_alistDelete hnd _
  | abortSig i =>
      simp only [step] at h
      unfold abortCall procSet at h
      dsimp only at h
      repeat' split at h
      all_goals try exact Option.noConfusion h
      all_goals injection h with h1
      all_goals subst h1
      all_goals first
        | exact hnd
        | exact nodup_alistDelete hnd _
  | setOp k v t => injection h with h1; subst h1; exact hnd
  | getOp k => injection h with h1; subst h1; exact hnd
  | peekOp k => injection h with h1; subst h1; exact hnd
  | deleteOp k => injection h with h1; subst h1; exact hnd
  | clearOp => injection h with h1; subst h1; exact hnd
  | pruneOp => injection h with h1; subst h1; exact hnd

/-- **C3 counterexample**: the claim says the registry entry is removed
exactly when the operation settles, regardless of cancellation.  Run one
`getOrSet` caller that registers a load (pid 0) and then cancel that
caller: the registry is already empty (`inflight = []`) while pid 0 is
still pending (`ops = [0]`, nothing settled). -/
theorem claimC3_counterexample :
    (run sysSigC [Label.start 0, Label.abortSig 0]).map
        (fun sysf => (sysf.inflight, sysf.ops.map (fun o => o.pid),
          sysf.settled))
      = some ([], [0], []) := by
  decide

/-- **C3 (amended)**: at most one pending operation per key exists in the
registry at any time (step-preserved key uniqueness).  A foreground loader
failure settles the operation without writing an entry and leaves the
registry entry in place only until the creating caller's wait settles:
every caller sharing the operation completes with the error, the creator's
completion (or its cancellation — the deviation the counterexample forces)
deletes the registration while `delete`/`clear` never touch it, and a
subsequent `getOrSet` call with an empty registry re-invokes the loader and
re-registers. -/
theorem claimC3_inflight_lifecycle {K V : Type} [DecidableEq K] :
    (∀ (sys sys1 : Sys K V) (l : Label K V), step sys l = some sys1 →
       (alistKeys sys.inflight).Nodup → (alistKeys sys1.inflight).Nodup) ∧
    (∀ (sys : Sys K V) (pid : Nat) (op : LoadOp K) (ec : Nat),
       sys.ops.find? (fun o => o.pid == pid) = some op →
       op.background = false →
       ∃ sys1, settleLoad sys pid (LoadOutcome.err ec) = some sys1 ∧
         sys1.cache = sys.cache ∧ sys1.log = sys.log ∧
         sys1.inflight = sys.inflight ∧ sys1.procs = sys.procs ∧
         sys1.ops = sys.ops.filter (fun o => o.pid != pid) ∧
         sys1.settled = sys.settled ++ [(pid, LoadOutcome.err ec)]) ∧
    (∀ (sys : Sys K V) (j : Nat) (k : K) (opts : GetOrSetOpts) (pid : Nat)
       (c : Bool) (ec : Nat),
       sys.procs.get? j = some ⟨k, opts, ProcState.waiting pid c⟩ →
       alistLookup sys.settled pid = some (LoadOutcome.err ec) →
       (alistKeys sys.inflight).Nodup →
       ∃ sys2, completeCall sys j = some sys2 ∧
         sys2.procs.get? j =
           some ⟨k, opts, ProcState.done (CallResult.err ec)⟩ ∧
         sys2.cache = sys.cache ∧
         (c = true → alistLookup sys2.inflight k = none)) ∧
    (∀ (sys : Sys K V) (ia : Nat) (k : K) (opts : GetOrSetOpts) (pid : Nat),
       sys.procs.get? ia = some ⟨k, opts, ProcState.waiting pid true⟩ →
       opts.hasSignal = true → (alistKeys sys.inflight).Nodup →
       ∃ sys1, abortCall sys ia = some sys1 ∧
         alistLookup sys1.inflight k = none ∧
         sys1.ops = sys.ops ∧ sys1.settled = sys.settled) ∧
    (∀ (sys : Sys K V) (i : Nat) (k : K) (opts : GetOrSetOpts),
       sys.procs.get? i = some ⟨k, opts, ProcState.ready⟩ →
       opts.hasSignal = false → opts.dedupe = true →
       alistLookup sys.cache.map k = none →
       alistLookup sys.inflight k = none →
       ∃ sys1, startCall sys i = some sys1 ∧
         sys1.loaderCalls = sys.loaderCalls + 1 ∧
         alistLookup sys1.inflight k = some sys.nextPid ∧
         sys1.procs.get? i =
           some ⟨k, opts, ProcState.waiting sys.nextPid true⟩) := by
  refine ⟨?_, ?_, ?_, ?_, ?_⟩
  · intro sys sys1 l h hnd
    exact inflightNodup_step l h hnd
  · intro sys pid op ec hfind hbg
    have hrun : settleLoad sys pid (LoadOutcome.err ec) = some
        { cache := sys.cache
          inflight := sys.inflight
          ops := sys.ops.filter (fun o => o.pid != pid)
          settled := sys.settled ++ [(pid, LoadOutcome.err ec)]
          procs := sys.procs
          loaderCalls := sys.loaderCalls
          nextPid := sys.nextPid
          now := sys.now
          log := sys.log } := by
      simp [settleLoad, hfind, hbg]
    exact ⟨_, hrun, rfl, rfl, rfl, rfl, rfl, rfl⟩
  · intro sys j k opts pid c ec hp hs hnd
    cases c with
    | false =>
        have hrun : completeCall sys j = some
            { sys with procs := listModify sys.procs j fun p =>
                { p with state :=
                    ProcState.done (LoadOutcome.err ec).toResult } } := by
          simp [completeCall, procSet, ← List.get?_eq_getElem?, hp, hs]
        refine ⟨_, hrun, ?_, rfl, ?_⟩
        · show (listModify sys.procs j _).get? j = _
          rw [listModify_get?_self hp]
          rfl
        · intro hcontra
          exact Bool.noConfusion hcontra
    | true =>
        have hrun : completeCall sys j = some
            { sys with
                procs := listModify sys.procs j fun p =>
                  { p with state :=
                      ProcState.done (LoadOutcome.err ec).toResult }
                inflight := alistDelete sys.inflight k } := by
          simp [completeCall, procSet, ← List.get?_eq_getElem?, hp, hs]
        refine ⟨_, hrun, ?_, rfl, ?_⟩
        · show (listModify sys.procs j _).get? j = _
          rw [listModify_get?_self hp]
          rfl
        · intro _
          exact alistLookup_alistDelete_self hnd k
  · intro sys ia k opts pid hp hsig hnd
    have hrun : abortCall sys ia = some
        { sys with
            procs := listModify sys.procs ia fun p =>
              { p with state := ProcState.done CallResult.aborted }
            inflight := alistDelete sys.inflight k } := by
      simp [abortCall, procSet, ← List.get?_eq_getElem?, hp, hsig]
    exact ⟨_, hrun, alistLookup_alistDelete_self hnd k, rfl, rfl⟩
  · intro sys i k opts hp hsig hded hcache hinf
    have hrun : startCall sys i = some
        { cache := { sys.cache with
            stats := { sys.cache.stats with
              misses := sys.cache.stats.misses + 1 } }
          inflight := alistSet sys.inflight k sys.nextPid
          ops := sys.ops ++ [⟨sys.nextPid, k, opts.ttlMs, opts.swrMs, false⟩]
          settled := sys.settled
          procs := listModify sys.procs i fun p =>
            { p with state := ProcState.waiting sys.nextPid true }
          loaderCalls := sys.loaderCalls + 1
          nextPid := sys.nextPid + 1
          now := sys.now
          log := sys.log ++ [Eff.emitMiss k] } := by
      simp [startCall, startMiss, startNewLoad, procSet,
        ← List.get?_eq_getElem?, hp, hsig, hded, hcache, hinf]
    refine ⟨_, hrun, rfl, ?_, ?_⟩
    · exact alistLookup_alistSet_self sys.inflight k sys.nextPid
    · show (listModify sys.procs i _).get? i = _
      rw [listModify_get?_self hp]

/-- Witness for C3 (amended): a failing foreground load on the concrete
two-caller system settles with the error, writes nothing, and leaves the
registry entry for the creator to clean up. -/
theorem claimC3_witness :
    (sysWaitC.ops.find? (fun o => o.pid == 0)
        = some ⟨0, 7, none, none, false⟩ ∧
     (⟨0, 7, none, none, false⟩ : LoadOp Nat).background = false) ∧
    (∃ sys1, settleLoad sysWaitC 0 (LoadOutcome.err 5) = some sys1 ∧
      sys1.cache = sysWaitC.cache ∧ sys1.inflight = sysWaitC.inflight) := by
  refine ⟨⟨by decide, by decide⟩, ?_⟩
  obtain ⟨sys1, h1, h2, h3, h4, h5, h6, h7⟩ :=
    (@claimC3_inflight_lifecycle Nat Nat _).2.1 sysWaitC 0
      ⟨0, 7, none, none, false⟩ 5 (by decide) (by decide)
  exact ⟨sys1, h1, h2, h4⟩

/-! ### Claim C1: at-most-one-loader under dedupe, and the no-suspension
window of the synchronous prefix -/

theorem step_procs_length {K V : Type} [DecidableEq K] {sys sys1 : Sys K V}
    {l : Label K V} (h : step sys l = some sys1) :
    sys1.procs.length = sys.procs.length := by
  cases l with
  | start i =>
      have h1 : startCall sys i = some sys1 := h
      unfold startCall startMiss startNewLoad procSet at h1
      dsimp only at h1
      repeat' split at h1
      all_goals try exact Option.noConfusion h1
      all_goals injection h1 with h2
      all_goals subst h2
      all_goals simp [listModify_length]
  | settle pid oc =>
      have h1 : settleLoad sys pid oc = some sys1 := h
      unfold settleLoad at h1
      dsimp only at h1
      repeat' split at h1
      all_goals try exact Option.noConfusion h1
      all_goals injection h1 with h2
      all_goals subst h2
      all_goals rfl
  | complete i =>
      have h1 : completeCall sys i = some sys1 := h
      unfold completeCall procSet at h1
      dsimp only at h1
      repeat' split at h1
      all_goals try exact Option.noConfusion h1
      all_goals injection h1 with h2
      all_goals subst h2
      all_goals simp [listModify_length]
  | abortSig i =>
      have h1 : abortCall sys i = some sys1 := h
      unfold abortCall procSet at h1
      dsimp only at h1
      repeat' split at h1
      all_goals try exact Option.noConfusion h1
      all_goals injection h1 with h2
      all_goals subst h2
      all_goals simp [listModify_length]
  | setOp k v t => injection h with h2; subst h2; rfl
  | getOp k => injection h with h2; subst h2; rfl
  | peekOp k => injection h with h2; subst h2; rfl
  | deleteOp k => injection h with h2; subst h2; rfl
  | clearOp => injection h with h2; subst h2; rfl
  | pruneOp => injection h with h2; subst h2; rfl

theorem run_procs_length {K V : Type} [DecidableEq K] {sys sysf : Sys K V}
    {tr : List (Label K V)} (h : run sys tr = some sysf) :
    sysf.procs.length = sys.procs.length := by
  induction tr generalizing sys with
  | nil =>
      simp only [run] at h
      obtain rfl := Option.some.inj h
      rfl
  | cons l rest ih =>
      simp only [run] at h
      cases hs : step sys l with
      | none => rw [hs] at h; exact Option.noConfusion h
      | some sysm =>
          rw [hs] at h
          have h' : run sysm rest = some sysf := h
          exact (ih h').trans (step_procs_length hs)

theorem startsBeforeSettles_cons {K V : Type} {l : Label K V}
    {rest : List (Label K V)} (h : startsBeforeSettles (l :: rest) = true) :
    (isSettleL l = true ∧ rest.all (fun l2 => !(isStartL l2)) = true) ∨
    (isSettleL l = false ∧ startsBeforeSettles rest = true) := by
  simp only [startsBeforeSettles] at h
  by_cases hs : isSettleL l = true
  · rw [if_pos hs] at h
    exact Or.inl ⟨hs, h⟩
  · rw [if_neg hs] at h
    exact Or.inr ⟨Bool.eq_false_iff.mpr hs, h⟩

theorem c1_complete_pre {K V : Type} [DecidableEq K] {sys sys1 : Sys K V}
    {k : K} {i : Nat} (hpre : C1Pre1 sys k ∨ C1Pre2 sys k)
    (h : completeCall sys i = some sys1) : False := by
  cases hp : sys.procs.get? i with
  | none => rw [completeCall, hp] at h; exact Option.noConfusion h
  | some p =>
      rcases hpre with ⟨_, _, _, _, hset, _, _, hprocs⟩ |
        ⟨_, _, _, _, hset, _, _, hprocs⟩
      · have hpf := hprocs p (List.get?_mem hp)
        subst hpf
        rw [completeCall, hp] at h
        exact Option.noConfusion h
      · rcases hprocs p (List.get?_mem hp) with hpf | ⟨c, hpf⟩
        · subst hpf
          rw [completeCall, hp] at h
          exact Option.noConfusion h
        · subst hpf
          rw [completeCall, hp] at h
          rw [hset] at h
          exact Option.noConfusion h

theorem c1_abort_pre {K V : Type} [DecidableEq K] {sys sys1 : Sys K V}
    {k : K} {i : Nat} (hpre : C1Pre1 sys k ∨ C1Pre2 sys k)
    (h : abortCall sys i = some sys1) : False := by
  cases hp : sys.procs.get? i with
  | none => rw [abortCall, hp] at h; exact Option.noConfusion h
  | some p =>
      rcases hpre with ⟨_, _, _, _, _, _, _, hprocs⟩ |
        ⟨_, _, _, _, _, _, _, hprocs⟩
      · have hpf := hprocs p (List.get?_mem hp)
        subst hpf
        rw [abortCall, hp] at h
        exact Option.noConfusion h
      · rcases hprocs p (List.get?_mem hp) with hpf | ⟨c, hpf⟩
        · subst hpf
          rw [abortCall, hp] at h
          exact Option.noConfusion h
        · subst hpf
          rw [abortCall, hp] at h
          exact Option.noConfusion h

theorem c1_settle_pre {K V : Type} [DecidableEq K] {sys sys1 : Sys K V}
    {k : K} {pid : Nat} {o : LoadOutcome V}
    (hpre : C1Pre1 sys k ∨ C1Pre2 sys k)
    (h : settleLoad sys pid o = some sys1) : C1Post sys1 k o := by
  rcases hpre with ⟨_, _, _, hops, _⟩ |
    ⟨hnd, hment, hinf, hops, hset, hlc, hnp, hprocs⟩
  · rw [settleLoad, hops] at h
    exact Option.noConfusion h
  · by_cases hp0 : pid = 0
    · subst hp0
      have hf : sys.ops.find? (fun op1 => op1.pid == 0) =
          some ⟨0, k, none, none, false⟩ := by
        rw [hops]
        rfl
      cases o with
      | ok v =>
          obtain ⟨s1, hr, hprocs1, hops1, hset1, hmap1, hlist1, hlc1⟩ :=
            settleLoad_ok_shape sys v hf
          have heq : sys1 = s1 := Option.some.inj (h.symm.trans hr)
          subst heq
          refine ⟨?_, ?_, ?_, ?_⟩
          · rw [hops1, hops]
            rfl
          · rw [hset1, hset]
            rfl
          · rw [hlc1, hlc]
          · intro q hq
            rw [hprocs1] at hq
            rcases hprocs q hq with h1 | ⟨c, h1⟩
            · exact Or.inl h1
            · exact Or.inr (Or.inl ⟨c, h1⟩)
      | err ec =>
          obtain ⟨s1, hr, hc1, hprocs1, hops1, hset1, hinf1, hlog1, hlc1⟩ :=
            settleLoad_err_shape sys ec hf rfl
          have heq : sys1 = s1 := Option.some.inj (h.symm.trans hr)
          subst heq
          refine ⟨?_, ?_, ?_, ?_⟩
          · rw [hops1, hops]
            rfl
          · rw [hset1, hset]
            rfl
          · rw [hlc1, hlc]
          · intro q hq
            rw [hprocs1] at hq
            rcases hprocs q hq with h1 | ⟨c, h1⟩
            · exact Or.inl h1
            · exact Or.inr (Or.inl ⟨c, h1⟩)
    · have hf : sys.ops.find? (fun op1 => op1.pid == 0) =
          some ⟨0, k, none, none, false⟩ := by
        rw [hops]
        rfl
      have hfn : sys.ops.find? (fun op1 => op1.pid == pid) = none := by
        rw [hops]
        have : ((⟨0, k, none, none, false⟩ : LoadOp K).pid == pid) = false := by
          simp
          omega
        simp [List.find?, this]
      rw [settleLoad, hfn] at h
      exact Option.noConfusion h

theorem c1_start_pre1 {K V : Type} [DecidableEq K] {sys sys1 : Sys K V}
    {k : K} {i : Nat} (hpre : C1Pre1 sys k)
    (h : startCall sys i = some sys1) : C1Pre2 sys1 k := by
  obtain ⟨hnd, hment, hinf, hops, hset, hlc, hnp, hprocs⟩ := hpre
  cases hp : sys.procs.get? i with
  | none => rw [startCall, hp] at h; exact Option.noConfusion h
  | some p =>
      have hpf := hprocs p (List.get?_mem hp)
      subst hpf
      have hil : alistLookup sys.inflight k = (none : Option Nat) := by
        rw [hinf]
        rfl
      cases hl : alistLookup sys.cache.map k with
      | none =>
          have hrun : startCall sys i = some
              { cache := { sys.cache with
                  stats := { sys.cache.stats with
                    misses := sys.cache.stats.misses + 1 } }
                inflight := alistSet sys.inflight k sys.nextPid
                ops := sys.ops ++ [⟨sys.nextPid, k, none, none, false⟩]
                settled := sys.settled
                procs := listModify sys.procs i fun q =>
                  { q with state := ProcState.waiting sys.nextPid true }
                loaderCalls := sys.loaderCalls + 1
                nextPid := sys.nextPid + 1
                now := sys.now
                log := sys.log ++ [Eff.emitMiss k] } := by
            simp [startCall, startMiss, startNewLoad, procSet,
              ← List.get?_eq_getElem?, hp, hl, hil, optsPlain]
          have heq := Option.some.inj (h.symm.trans hrun)
          subst heq
          refine ⟨hnd, hment, ?_, ?_, hset, ?_, ?_, ?_⟩
          · show alistSet sys.inflight k sys.nextPid = [(k, 0)]
            rw [hinf, hnp]
            rfl
          · show sys.ops ++ [⟨sys.nextPid, k, none, none, false⟩] =
              [⟨0, k, none, none, false⟩]
            rw [hops, hnp]
            rfl
          · show sys.loaderCalls + 1 = 1
            rw [hlc]
          · show sys.nextPid + 1 = 1
            rw [hnp]
          · intro q hq
            rcases mem_listModify hq with hq1 | ⟨a, ha1, ha2⟩
            · exact Or.inl (hprocs q hq1)
            · have haeq : a = ⟨k, optsPlain, ProcState.ready⟩ :=
                Option.some.inj (ha1.symm.trans hp)
              subst haeq
              refine Or.inr ⟨true, ?_⟩
              rw [hnp] at ha2
              exact ha2
      | some entry =>
          have hef := hment (k, entry) (alistLookup_mem hl) rfl
          have hrun : startCall sys i = some
              { cache := { sys.cache with
                  list := removeKey sys.cache.list entry.key
                  map := alistDelete sys.cache.map entry.key
                  stats := { sys.cache.stats with
                    evictions := sys.cache.stats.evictions + 1
                    misses := sys.cache.stats.misses + 1 } }
                inflight := alistSet sys.inflight k sys.nextPid
                ops := sys.ops ++ [⟨sys.nextPid, k, none, none, false⟩]
                settled := sys.settled
                procs := listModify sys.procs i fun q =>
                  { q with state := ProcState.waiting sys.nextPid true }
                loaderCalls := sys.loaderCalls + 1
                nextPid := sys.nextPid + 1
                now := sys.now
                log := sys.log ++ [Eff.onEvict entry.key entry.value
                    EvictReason.expired,
                  Eff.emitEvict entry.key entry.value, Eff.emitMiss k] } := by
            simp [startCall, startMiss, startNewLoad, procSet,
              TtlCache.removeEntry, ← List.get?_eq_getElem?, hp, hl,
              hef.1, hef.2, hil, optsPlain]
          have heq := Option.some.inj (h.symm.trans hrun)
          subst heq
          refine ⟨?_, ?_, ?_, ?_, hset, ?_, ?_, ?_⟩
          · exact nodup_alistDelete hnd entry.key
          · intro q hq hqk
            exact hment q (mem_alistDelete_of_mem hq) hqk
          · show alistSet sys.inflight k sys.nextPid = [(k, 0)]
            rw [hinf, hnp]
            rfl
          · show sys.ops ++ [⟨sys.nextPid, k, none, none, false⟩] =
              [⟨0, k, none, none, false⟩]
            rw [hops, hnp]
            rfl
          · show sys.loaderCalls + 1 = 1
            rw [hlc]
          · show sys.nextPid + 1 = 1
            rw [hnp]
          · intro q hq
            rcases mem_listModify hq with hq1 | ⟨a, ha1, ha2⟩
            · exact Or.inl (hprocs q hq1)
            · have haeq : a = ⟨k, optsPlain, ProcState.ready⟩ :=
                Option.some.inj (ha1.symm.trans hp)
              subst haeq
              refine Or.inr ⟨true, ?_⟩
              rw [hnp] at ha2
              exact ha2

theorem c1_start_pre2 {K V : Type} [DecidableEq K] {sys sys1 : Sys K V}
    {k : K} {i : Nat} (hpre : C1Pre2 sys k)
    (h : startCall sys i = some sys1) : C1Pre2 sys1 k := by
  obtain ⟨hnd, hment, hinf, hops, hset, hlc, hnp, hprocs⟩ := hpre
  cases hp : sys.procs.get? i with
  | none => rw [startCall, hp] at h; exact Option.noConfusion h
  | some p =>
      rcases hprocs p (List.get?_mem hp) with hpf | ⟨c, hpf⟩
      swap
      · subst hpf
        rw [startCall, hp] at h
        exact Option.noConfusion h
      subst hpf
      have hil : alistLookup sys.inflight k = some 0 := by
        rw [hinf]
        simp [alistLookup]
      cases hl : alistLookup sys.cache.map k with
      | none =>
          have hrun : startCall sys i = some
              { cache := { sys.cache with
                  stats := { sys.cache.stats with
                    misses := sys.cache.stats.misses + 1 } }
                inflight := sys.inflight
                ops := sys.ops
                settled := sys.settled
                procs := listModify sys.procs i fun q =>
                  { q with state := ProcState.waiting 0 false }
                loaderCalls := sys.loaderCalls
                nextPid := sys.nextPid
                now := sys.now
                log := sys.log ++ [Eff.emitMiss k] } := by
            simp [startCall, startMiss, startNewLoad, procSet,
              ← List.get?_eq_getElem?, hp, hl, hil, optsPlain]
          have heq := Option.some.inj (h.symm.trans hrun)
          subst heq
          refine ⟨hnd, hment, hinf, hops, hset, hlc, hnp, ?_⟩
          intro q hq
          rcases mem_listModify hq with hq1 | ⟨a, ha1, ha2⟩
          · exact hprocs q hq1
          · rcases hprocs a (List.get?_mem ha1) with haf | ⟨c1, haf⟩
            · subst haf
              exact Or.inr ⟨false, ha2⟩
            · subst haf
              exact Or.inr ⟨false, ha2⟩
      | some entry =>
          have hef := hment (k, entry) (alistLookup_mem hl) rfl
          have hrun : startCall sys i = some
              { cache := { sys.cache with
                  list := removeKey sys.cache.list entry.key
                  map := alistDelete sys.cache.map entry.key
                  stats := { sys.cache.stats with
                    evictions := sys.cache.stats.evictions + 1
                    misses := sys.cache.stats.misses + 1 } }
                inflight := sys.inflight
                ops := sys.ops
                settled := sys.settled
                procs := listModify sys.procs i fun q =>
                  { q with state := ProcState.waiting 0 false }
                loaderCalls := sys.loaderCalls
                nextPid := sys.nextPid
                now := sys.now
                log := sys.log ++ [Eff.onEvict entry.key entry.value
                    EvictReason.expired,
                  Eff.emitEvict entry.key entry.value, Eff.emitMiss k] } := by
            simp [startCall, startMiss, startNewLoad, procSet,
              TtlCache.removeEntry, ← List.get?_eq_getElem?, hp, hl,
              hef.1, hef.2, hil, optsPlain]
          have heq := Option.some.inj (h.symm.trans hrun)
          subst heq
          refine ⟨?_, ?_, hinf, hops, hset, hlc, hnp, ?_⟩
          · exact nodup_alistDelete hnd entry.key
          · intro q hq hqk
            exact hment q (mem_alistDelete_of_mem hq) hqk
          · intro q hq
            rcases mem_listModify hq with hq1 | ⟨a, ha1, ha2⟩
            · exact hprocs q hq1
            · rcases hprocs a (List.get?_mem ha1) with haf | ⟨c1, haf⟩
              · subst haf
                exact Or.inr ⟨false, ha2⟩
              · subst haf
                exact Or.inr ⟨false, ha2⟩

theorem c1_pre_step {K V : Type} [DecidableEq K] {sys sys1 : Sys K V}
    {k : K} {l : Label K V} (hpre : C1Pre1 sys k ∨ C1Pre2 sys k)
    (hcall : isCallLabel l = true) (hns : isSettleL l = false)
    (hstep : step sys l = some sys1) : C1Pre1 sys1 k ∨ C1Pre2 sys1 k := by
  cases l with
  | start i =>
      rcases hpre with h1 | h2
      · exact Or.inr (c1_start_pre1 h1 hstep)
      · exact Or.inr (c1_start_pre2 h2 hstep)
  | settle pid oc => simp [isSettleL] at hns
  | complete i => exact (c1_complete_pre hpre hstep).elim
  | abortSig i => exact (c1_abort_pre hpre hstep).elim
  | setOp k1 v t => simp [isCallLabel] at hcall
  | getOp k1 => simp [isCallLabel] at hcall
  | peekOp k1 => simp [isCallLabel] at hcall
  | deleteOp k1 => simp [isCallLabel] at hcall
  | clearOp => simp [isCallLabel] at hcall
  | pruneOp => simp [isCallLabel] at hcall

theorem c1_post_step {K V : Type} [DecidableEq K] {sys sys1 : Sys K V}
    {k : K} {o : LoadOutcome V} {l : Label K V}
    (hpost : C1Post sys k o) (hcall : isCallLabel l = true)
    (hnostart : isStartL l = false) (hstep : step sys l = some sys1) :
    C1Post sys1 k o := by
  obtain ⟨hops, hset, hlc, hprocs⟩ := hpost
  cases l with
  | start i => simp [isStartL] at hnostart
  | settle pid oc =>
      have h : settleLoad sys pid oc = some sys1 := hstep
      rw [settleLoad, hops] at h
      exact Option.noConfusion h
  | complete i =>
      have h : completeCall sys i = some sys1 := hstep
      cases hp : sys.procs.get? i with
      | none => rw [completeCall, hp] at h; exact Option.noConfusion h
      | some p =>
          rcases hprocs p (List.get?_mem hp) with hpf | ⟨c, hpf⟩ | hpf
          · subst hpf
            rw [completeCall, hp] at h
            exact Option.noConfusion h
          · subst hpf
            have hsl : alistLookup sys.settled 0 = some o := by
              rw [hset]
              simp [alistLookup]
            cases c with
            | false =>
                have hrun : completeCall sys i = some
                    { sys with procs := listModify sys.procs i fun q =>
                        { q with state := ProcState.done o.toResult } } := by
                  simp [completeCall, procSet, ← List.get?_eq_getElem?,
                    hp, hsl]
                have heq := Option.some.inj (h.symm.trans hrun)
                subst heq
                refine ⟨hops, hset, hlc, ?_⟩
                intro q hq
                rcases mem_listModify hq with hq1 | ⟨a, ha1, ha2⟩
                · exact hprocs q hq1
                · have haeq : a = ⟨k, optsPlain, ProcState.waiting 0 false⟩ :=
                    Option.some.inj (ha1.symm.trans hp)
                  subst haeq
                  exact Or.inr (Or.inr ha2)
            | true =>
                have hrun : completeCall sys i = some
                    { sys with
                        procs := listModify sys.procs i fun q =>
                          { q with state := ProcState.done o.toResult }
                        inflight := alistDelete sys.inflight k } := by
                  simp [completeCall, procSet, ← List.get?_eq_getElem?,
                    hp, hsl]
                have heq := Option.some.inj (h.symm.trans hrun)
                subst heq
                refine ⟨hops, hset, hlc, ?_⟩
                intro q hq
                rcases mem_listModify hq with hq1 | ⟨a, ha1, ha2⟩
                · exact hprocs q hq1
                · have haeq : a = ⟨k, optsPlain, ProcState.waiting 0 true⟩ :=
                    Option.some.inj (ha1.symm.trans hp)
                  subst haeq
                  exact Or.inr (Or.inr ha2)
          · subst hpf
            rw [completeCall, hp] at h
            exact Option.noConfusion h
  | abortSig i =>
      have h : abortCall sys i = some sys1 := hstep
      cases hp : sys.procs.get? i with
      | none => rw [abortCall, hp] at h; exact Option.noConfusion h
      | some p =>
          rcases hprocs p (List.get?_mem hp) with hpf | ⟨c, hpf⟩ | hpf
          · subst hpf
            rw [abortCall, hp] at h
            exact Option.noConfusion h
          · subst hpf
            rw [abortCall, hp] at h
            exact Option.noConfusion h
          · subst hpf
            rw [abortCall, hp] at h
            exact Option.noConfusion h
  | setOp k1 v t => simp [isCallLabel] at hcall
  | getOp k1 => simp [isCallLabel] at hcall
  | peekOp k1 => simp [isCallLabel] at hcall
  | deleteOp k1 => simp [isCallLabel] at hcall
  | clearOp => simp [isCallLabel] at hcall
  | pruneOp => simp [isCallLabel] at hcall

theorem c1_post_run {K V : Type} [DecidableEq K] {sys sysf : Sys K V}
    {k : K} {o : LoadOutcome V} {tr : List (Label K V)}
    (hpost : C1Post sys k o) (hrun : run sys tr = some sysf)
    (hcall : tr.all isCallLabel = true)
    (hnostart : tr.all (fun l2 => !(isStartL l2)) = true) :
    C1Post sysf k o := by
  induction tr generalizing sys with
  | nil =>
      simp only [run] at hrun
      obtain rfl := Option.some.inj hrun
      exact hpost
  | cons l rest ih =>
      simp only [run] at hrun
      cases hs : step sys l with
      | none => rw [hs] at hrun; exact Option.noConfusion hrun
      | some sysm =>
          rw [hs] at hrun
          have hrun' : run sysm rest = some sysf := hrun
          have hc := List.all_eq_true.mp hcall
          have hns := List.all_eq_true.mp hnostart
          have h1 : isCallLabel l = true := hc l (List.mem_cons_self l rest)
          have h2 : rest.all isCallLabel = true :=
            List.all_eq_true.mpr fun x hx => hc x (List.mem_cons_of_mem l hx)
          have h3 : isStartL l = false := by
            have := hns l (List.mem_cons_self l rest)
            simpa using this
          have h4 : rest.all (fun l2 => !(isStartL l2)) = true :=
            List.all_eq_true.mpr fun x hx => hns x (List.mem_cons_of_mem l hx)
          exact ih (c1_post_step hpost h1 h3 hs) hrun' h2 h4

theorem c1_pre_run {K V : Type} [DecidableEq K] {sys sysf : Sys K V}
    {k : K} {tr : List (Label K V)}
    (hpre : C1Pre1 sys k ∨ C1Pre2 sys k) (hrun : run sys tr = some sysf)
    (hcall : tr.all isCallLabel = true)
    (hsbs : startsBeforeSettles tr = true) :
    (C1Pre1 sysf k ∨ C1Pre2 sysf k) ∨ ∃ o, C1Post sysf k o := by
  induction tr generalizing sys with
  | nil =>
      simp only [run] at hrun
      obtain rfl := Option.some.inj hrun
      exact Or.inl hpre
  | cons l rest ih =>
      simp only [run] at hrun
      cases hs : step sys l with
      | none => rw [hs] at hrun; exact Option.noConfusion hrun
      | some sysm =>
          rw [hs] at hrun
          have hrun' : run sysm rest = some sysf := hrun
          have hc := List.all_eq_true.mp hcall
          have h1 : isCallLabel l = true := hc l (List.mem_cons_self l rest)
          have h2 : rest.all isCallLabel = true :=
            List.all_eq_true.mpr fun x hx => hc x (List.mem_cons_of_mem l hx)
          rcases startsBeforeSettles_cons hsbs with ⟨hsl, hrest⟩ | ⟨hsl, hrest⟩
          · cases l with
            | settle pid oc =>
                have hpost := c1_settle_pre hpre hs
                exact Or.inr ⟨oc, c1_post_run hpost hrun' h2 hrest⟩
            | start i => simp [isSettleL] at hsl
            | complete i => simp [isSettleL] at hsl
            | abortSig i => simp [isSettleL] at hsl
            | setOp k1 v t => simp [isSettleL] at hsl
            | getOp k1 => simp [isSettleL] at hsl
            | peekOp k1 => simp [isSettleL] at hsl
            | deleteOp k1 => simp [isSettleL] at hsl
            | clearOp => simp [isSettleL] at hsl
            | pruneOp => simp [isSettleL] at hsl
          · exact ih (c1_pre_step hpre h1 hsl hs) hrun' h2 hrest

/-- **C1**: for N concurrent `getOrSet` callers of the same key with dedupe
on (the default options) over a store with no fresh or stale entry for that
key, along any schedule of the `getOrSet` protocol in which every call
starts before the loader settles, once every caller has finished the loader
has been invoked exactly once, exactly one promise has settled, and every
caller ends with that one outcome's result (its value on success, its error
on failure).  Moreover the synchronous prefix of `getOrSet` never suspends
between determining the miss and registering the pending operation: its
action trace puts the single `awaitPoint` strictly after
`inflightRegistered`, with no suspension between `missDetermined` and the
registration. -/
theorem claimC1_dedupe_single_loader {K V : Type} [DecidableEq K]
    (sys0 sysf : Sys K V) (k : K) (tr : List (Label K V))
    (hinit : C1Init sys0 k) (hrun : run sys0 tr = some sysf)
    (hcall : tr.all isCallLabel = true)
    (hsbs : startsBeforeSettles tr = true)
    (hdone : allDone sysf = true) :
    (sysf.loaderCalls = 1 ∧
     ∃ o : LoadOutcome V, sysf.settled = [(0, o)] ∧
       ∀ p ∈ sysf.procs, p.state = ProcState.done o.toResult) ∧
    (∀ entryPresent fresh stale : Bool,
       (entryPresent && fresh) = false → (entryPresent && stale) = false →
       ∃ mid, getOrSetSyncActions false entryPresent fresh stale true false =
           SyncAction.missDetermined ::
             (mid ++ [SyncAction.loaderInvoked, SyncAction.inflightRegistered,
               SyncAction.awaitPoint]) ∧
         SyncAction.awaitPoint ∉ mid ∧
         SyncAction.inflightRegistered ∉ mid) := by
  obtain ⟨hpre1, hne⟩ := hinit
  constructor
  · have hall := List.all_eq_true.mp hdone
    rcases c1_pre_run (Or.inl hpre1) hrun hcall hsbs with hpre |
      ⟨o, hops, hset, hlc, hprocs⟩
    · exfalso
      have hlen : sysf.procs.length = sys0.procs.length :=
        run_procs_length hrun
      have hne' : sysf.procs ≠ [] := by
        intro h0
        rw [h0] at hlen
        exact hne (List.length_eq_zero.mp hlen.symm)
      obtain ⟨p, hp⟩ := List.exists_mem_of_ne_nil _ hne'
      have hdp := hall p hp
      rcases hpre with ⟨_, _, _, _, _, _, _, hpr⟩ |
        ⟨_, _, _, _, _, _, _, hpr⟩
      · have hpf := hpr p hp
        subst hpf
        exact Bool.noConfusion hdp
      · rcases hpr p hp with h1 | ⟨c, h1⟩
        · subst h1
          exact Bool.noConfusion hdp
        · subst h1
          exact Bool.noConfusion hdp
    · refine ⟨hlc, o, hset, ?_⟩
      intro p hp
      rcases hprocs p hp with h1 | ⟨c, h1⟩ | h1
      · exfalso
        have hdp := hall p hp
        subst h1
        exact Bool.noConfusion hdp
      · exfalso
        have hdp := hall p hp
        subst h1
        exact Bool.noConfusion hdp
      · rw [h1]
  · intro ep f s h1 h2
    cases ep with
    | true =>
        cases f with
        | true => exact absurd h1 (by decide)
        | false =>
            cases s with
            | true => exact absurd h2 (by decide)
            | false =>
                exact ⟨[SyncAction.removedExpired, SyncAction.recordMiss],
                  by decide, by decide, by decide⟩
    | false =>
        cases f <;> cases s <;>
          exact ⟨[SyncAction.recordMiss], by decide, by decide, by decide⟩

/-- Witness for C1: two concurrent callers of key 0 over the empty idle
store, under the schedule start-start-settle-complete-complete, end with one
loader invocation and both callers resolved to the loaded value 7. -/
theorem claimC1_witness :
    C1Init c1SysC 0 ∧
    ∃ sysf, run c1SysC c1TraceC = some sysf ∧ allDone sysf = true ∧
      sysf.loaderCalls = 1 ∧
      ∃ o, sysf.settled = [(0, o)] ∧
        ∀ p ∈ sysf.procs, p.state = ProcState.done o.toResult := by
  refine ⟨by decide, ?_⟩
  cases hr : run c1SysC c1TraceC with
  | none => exact absurd hr (by decide)
  | some sysf =>
      have hdone : allDone sysf = true := by
        have h2 : (run c1SysC c1TraceC).map allDone = some true := by decide
        rw [hr] at h2
        exact Option.some.inj h2
      exact ⟨sysf, rfl, hdone,
        (claimC1_dedupe_single_loader c1SysC sysf 0 c1TraceC (by decide)
          hr (by decide) (by decide) hdone).1⟩

end TtlCacheProof
